import Mathlib

/-
Verification of the convergence-acceleration core of `mpmath/calculus.py`
(Richardson extrapolation, the Shanks transformation via Wynn's epsilon
algorithm, Euler-Maclaurin summation, and the adaptive orchestrator).

Arbitrary-precision mpf values are modelled as exact rationals (`ℚ`).
Python exceptions are modelled with `Except`, and the process-wide
working-precision register `mp.prec` is modelled by explicit state passing
of a natural number.
-/

namespace Mpmath

/-! ## Wynn epsilon table: `shanks(seq, table=None, randomized=False)`

Source (`calculus.py`, lines 305-339):

```
assert len(seq) >= 2
if table:
    START = len(table)
else:
    START = 0
    table = []
STOP = len(seq) - 1
if STOP & 1:
    STOP -= 1
one = mpf(1)
if randomized:
    from random import Random
    rnd = Random()
    rnd.seed(START)
for i in xrange(START, STOP):
    row = []
    for j in xrange(i+1):
        if j == 0:
            a, b = 0, seq[i+1]-seq[i]
        else:
            if j == 1:
                a = seq[i]
            else:
                a = table[i-1][j-2]
            b = row[j-1] - table[i-1][j-1]
        if not b:
            if randomized:
                b = rnd.getrandbits(10)*eps
            elif i & 1:
                return table[:-1]
            else:
                return table
        row.append(a + one/b)
    table.append(row)
return table
```

The deterministic mode (`randomized=False`) is embedded first.  The inner
`for j` loop is `shanksRowAux`: `row` holds the entries built so far,
`j` is the current column, `n` the number of columns still to build
(initially `i+1`), and the result is `none` when an exact-zero denominator
`b` is met (the Python code then returns from `shanks` entirely).
The outer `for i` loop is `shanksLoop`, with fuel `STOP - START`; the
loop index `i` always equals the current table length. -/
/-- The `a` value for column `j` of row `i` (`0`, `seq[i]`, or `table[i-1][j-2]`). -/
def shanksA (seq prev : List ℚ) (i j : ℕ) : ℚ :=
  if j = 0 then 0 else if j = 1 then seq.getD i 0 else prev.getD (j-2) 0

/-- The denominator `b` for column `j` of row `i`
(`seq[i+1]-seq[i]`, or `row[j-1] - table[i-1][j-1]`). -/
def shanksB (seq prev row : List ℚ) (i j : ℕ) : ℚ :=
  if j = 0 then seq.getD (i+1) 0 - seq.getD i 0
  else row.getD (j-1) 0 - prev.getD (j-1) 0

def shanksRowAux (seq prev : List ℚ) (i : ℕ) : ℕ → ℕ → List ℚ → Option (List ℚ)
  | 0, _, row => some row
  | n+1, j, row =>
    if shanksB seq prev row i j = 0 then none
    else shanksRowAux seq prev i n (j+1)
      (row ++ [shanksA seq prev i j + 1 / shanksB seq prev row i j])

/-- Row `i` of the epsilon table, built from the previous row `prev`
(`table[i-1]` in the source; unused for `i = 0`). -/
def shanksRow (seq prev : List ℚ) (i : ℕ) : Option (List ℚ) :=
  shanksRowAux seq prev i (i+1) 0 []

def shanksLoop (seq : List ℚ) : ℕ → List (List ℚ) → List (List ℚ)
  | 0, table => table
  | n+1, table =>
    match shanksRow seq (table.getD (table.length - 1) []) table.length with
    | none => if table.length % 2 = 1 then table.dropLast else table
    | some row => shanksLoop seq n (table ++ [row])

/-- Embeds `STOP = len(seq) - 1; if STOP & 1: STOP -= 1`. -/
def shanksSTOP (len : ℕ) : ℕ :=
  let s := len - 1
  if s % 2 = 1 then s - 1 else s

/-- Deterministic `shanks`.  `START = len(table)` (`0` for the empty table),
and the outer loop runs for `STOP - START` iterations. -/
def shanks (seq : List ℚ) (table : List (List ℚ)) : List (List ℚ) :=
  shanksLoop seq (shanksSTOP seq.length - table.length) table

/-- The exactly-geometric sequence from the shanks docstring:
`[0.5, 0.75, 0.875, 0.9375, 0.96875]` (partial sums of `Σ 2^-k`). -/
def geoSeq : List ℚ := [1/2, 3/4, 7/8, 15/16, 31/32]

/-- The last row of a table is reproducible by the recurrence from the rest
of the table (trivially true for the empty table).  This invariant of the
loop makes a truncated table a fixed point of further extension calls. -/
def LastOk (seq : List ℚ) (t : List (List ℚ)) : Prop :=
  t = [] ∨ shanksRow seq (t.getD (t.length - 2) []) (t.length - 1) =
    some (t.getD (t.length - 1) [])

/-! ## Python exceptions -/
/-- Python exception kinds arising in the embedded code. `nonTermination` is
a modelling artifact for loop fuel exhaustion (the source would keep
looping); `userError` stands for an exception propagating out of
caller-supplied code. -/
inductive PyErr
  | zeroDivision
  | indexError
  | assertionError
  | notImplemented
  | nonTermination
  | userError
  deriving Repr, DecidableEq

/-! ## Randomized `shanks` (`randomized=True`)

In randomized mode an exact-zero denominator `b` is replaced by
`rnd.getrandbits(10)*eps`, where `rnd = Random(); rnd.seed(START)` —
a 10-bit draw (an integer in `[0, 1024)`) from a Mersenne-Twister stream
seeded with the starting row index, times the machine epsilon at the current
working precision.  The draw stream is modelled by an oracle
`rnd : ℕ → ℕ → ℕ` (seed, then draw index); `epsv` is the epsilon value.
`row.append(a + one/b)` then divides by the possibly-replaced `b`; a zero
divisor at that point is a Python `ZeroDivisionError`. -/
def shanksRRowAux (seq prev : List ℚ) (epsv : ℚ) (rnd : ℕ → ℕ) (i : ℕ) :
    ℕ → ℕ → ℕ → List ℚ → Except PyErr (List ℚ × ℕ)
  | 0, _, d, row => .ok (row, d)
  | n+1, j, d, row =>
    let b := shanksB seq prev row i j
    if b = 0 then
      let b' := (rnd d : ℚ) * epsv
      if b' = 0 then .error .zeroDivision
      else shanksRRowAux seq prev epsv rnd i n (j+1) (d+1)
        (row ++ [shanksA seq prev i j + 1 / b'])
    else shanksRRowAux seq prev epsv rnd i n (j+1) d
      (row ++ [shanksA seq prev i j + 1 / b])

def shanksRRow (seq prev : List ℚ) (epsv : ℚ) (rnd : ℕ → ℕ) (i d : ℕ) :
    Except PyErr (List ℚ × ℕ) :=
  shanksRRowAux seq prev epsv rnd i (i+1) 0 d []

def shanksRLoop (seq : List ℚ) (epsv : ℚ) (rnd : ℕ → ℕ) :
    ℕ → ℕ → List (List ℚ) → Except PyErr (List (List ℚ))
  | 0, _, table => .ok table
  | n+1, d, table =>
    match shanksRRow seq (table.getD (table.length - 1) []) epsv rnd
        table.length d with
    | .error e => .error e
    | .ok (row, d') => shanksRLoop seq epsv rnd n d' (table ++ [row])

/-- Embeds `shanks(seq, table, randomized=True)`: the PRNG is seeded with
`START = len(table)` and the loop otherwise follows the same Wynn
recurrence, substituting `getrandbits(10)*eps` for exact-zero denominators
instead of truncating. -/
def shanksRandomized (seq : List ℚ) (table : List (List ℚ)) (epsv : ℚ)
    (rnd : ℕ → ℕ → ℕ) : Except PyErr (List (List ℚ)) :=
  shanksRLoop seq epsv (rnd table.length)
    (shanksSTOP seq.length - table.length) 0 table

/-! ## Richardson extrapolation: `richardson(seq)`

Source (`calculus.py`, lines 157-172):

```
assert len(seq) >= 3
if sign(seq[-1]-seq[-2]) != sign(seq[-2]-seq[-3]):
    seq = seq[::2]
N = len(seq)//2-1
s = mpf(0)
c = (-1)**N * N**N / mpf(int_fac(N))
maxc = 1
for k in xrange(N+1):
    s += c * seq[N+k]
    maxc = max(abs(c), maxc)
    c *= (k-N)*mpf(k+N+1)**N
    c /= ((1+k)*mpf(k+N)**N)
return s, maxc
```
-/
/-- Modelled from the spec context: the `sign` helper imported from the
numeric layer (not under `src/`); the standard signum, with `sign 0 = 0`. -/
def signQ (x : ℚ) : ℚ := if x < 0 then -1 else if x = 0 then 0 else 1

/-- Embeds `seq[::2]`: the even-indexed elements. -/
def richEvens : List ℚ → List ℚ
  | [] => []
  | [a] => [a]
  | a :: _ :: t => a :: richEvens t

/-- The sequence actually extrapolated: restricted to even indices when the
last two finite differences disagree in sign (oscillation detection). -/
def richSeq (seq : List ℚ) : List ℚ :=
  if signQ (seq.getD (seq.length - 1) 0 - seq.getD (seq.length - 2) 0) ≠
      signQ (seq.getD (seq.length - 2) 0 - seq.getD (seq.length - 3) 0)
  then richEvens seq else seq

def richLoop (sq : List ℚ) (N : ℕ) : ℕ → ℕ → ℚ → ℚ → ℚ → ℚ × ℚ
  | 0, _, s, _, maxc => (s, maxc)
  | cnt+1, k, s, c, maxc =>
    richLoop sq N cnt (k+1) (s + c * sq.getD (N+k) 0)
      (c * (((k:ℚ) - (N:ℚ)) * ((k:ℚ) + (N:ℚ) + 1)^N) /
        ((1 + (k:ℚ)) * ((k:ℚ) + (N:ℚ))^N))
      (max |c| maxc)

def richardson (seq : List ℚ) : ℚ × ℚ :=
  let sq := richSeq seq
  let N := sq.length / 2 - 1
  richLoop sq N (N+1) 0 0 ((-1)^N * (N:ℚ)^N / (Nat.factorial N : ℚ)) 1

/-- Asserting wrapper (`assert len(seq) >= 3`) used by the orchestrator. -/
def richardsonChecked (seq : List ℚ) : Except PyErr (ℚ × ℚ) :=
  if 3 ≤ seq.length then .ok (richardson seq) else .error .assertionError

/-- The closed-form weight from the source comment:
`c[k] = (N+k)**N * (-1)**(k+N) / k! / (N-k)!`. -/
def richWeight (N k : ℕ) : ℚ :=
  (-1)^(k+N) * ((N+k : ℕ) : ℚ)^N /
    ((Nat.factorial k : ℚ) * (Nat.factorial (N-k) : ℚ))

/-! ## `nsum(f, interval)`: domain reduction to a single forward sequence

Source (`calculus.py`, lines 820-848):

```
a, b = AS_POINTS(interval)
if a == -inf:
    if b == inf:
        return f(0) + nsum(lambda k: f(-k) + f(k), [1, inf], **kwargs)
    return nsum(f, [-b, inf], **kwargs)
elif b != inf:
    raise NotImplementedError("finite sums")
a = int(a)
def update(partial_sums, indices):
    ...
    for k in indices:
        psum = psum + f(a + mpf(k))
        partial_sums.append(psum)
...
return +adaptive_extrapolation(update, emfun, kwargs)
```

For this claim only the reduction layer matters, so the orchestrator is
abstracted as a functional `Or` consuming the forward term sequence
`k ↦ f(a + k)` that `update` enumerates.  Error paths (`NotImplementedError`
for finite sums, `int(inf)` failures for infinite `a`) are `none`. -/
/-- An interval endpoint as produced by `AS_POINTS`: finite or ±∞. -/
inductive Pt
  | fin (n : ℤ)
  | pinf
  | ninf
  deriving DecidableEq, Repr

/-- Embeds `nsum` with finite start `a` (the path below the two reductions):
hands the orchestrator the forward sequence `k ↦ f(a + k)`; every other
endpoint combination raises. -/
def nsumFin (orch : (ℕ → ℚ) → ℚ) (f : ℤ → ℚ) (a : ℤ) : Pt → Option ℚ
  | .pinf => some (orch (fun k => f (a + (k:ℤ))))
  | _ => none

/-- The two `a == -inf` reductions of `nsum`.  The recursive calls
`nsum(..., [1, inf])` and `nsum(f, [-b, inf])` dispatch to the finite-start
path, i.e. to `nsumFin`.  `[-inf, -inf]` ends in `nsum(f, [inf, inf])`,
which raises at `int(a)`. -/
def nsum (orch : (ℕ → ℚ) → ℚ) (f : ℤ → ℚ) : Pt → Pt → Option ℚ
  | .ninf, .pinf =>
    (nsumFin orch (fun k => f (-k) + f k) 1 .pinf).map (fun v => f 0 + v)
  | .ninf, .fin b => nsumFin orch f (-b) .pinf
  | .ninf, .ninf => none
  | .fin a, b => nsumFin orch f a b
  | .pinf, _ => none

/-! ## Euler-Maclaurin summation: `sumem`

Source (`calculus.py`, lines 404-457).  The collaborators that live outside
`src/` are oracles: `quad` (numerical quadrature) and the default `diffs`
derivative streams (numerical differentiation).  Derivative streams are
finite lists of effectful elements (the source consumes `izip(adiffs,
bdiffs)` lazily; `izip` stops at the shorter stream, and at an infinite
endpoint the source substitutes 10000 zeros).  Effectful values take the
precision register and return a result plus the new register. -/
/-- Modelled from the spec: the Bernoulli numbers `B_n` (the `bernoulli`
helper is imported from outside `src/`), via the standard recurrence
`B_m = -1/(m+1) · Σ_{k<m} C(m+1,k) B_k`, `B_0 = 1` (so `B_1 = -1/2`;
only even indices are used by `sumem`). -/
def bernNext (prev : List ℚ) : List ℚ :=
  prev ++ [(-1 / ((prev.length : ℚ) + 1)) *
    ∑ k in Finset.range prev.length, (Nat.choose (prev.length + 1) k : ℚ) * prev.getD k 0]

def bernList : ℕ → List ℚ
  | 0 => [1]
  | n+1 => bernNext (bernList n)

def bernoulliQ (n : ℕ) : ℚ := (bernList n).getD n 0

/-- The correction-series loop of `sumem` over the zipped derivative
streams, mirroring:

```
for k, (da, db) in enumerate(izip(adiffs, bdiffs)):
    if k & 1:
        term = (db-da) * bernoulli(k+1) / factorial(k+1)
        mag = abs(term)
        if k > 4 and mag < tol:
            s += term; break
        elif k > 4 and abs(prev) / mag < reject:
            err += mag; break
        else:
            s += term
        prev = term
```

A zero `mag` reaching the `abs(prev)/mag` division raises
`ZeroDivisionError` (only possible when `tol ≤ 0`). -/
def sumemLoop (tol reject : ℚ) :
    List ((ℕ → (Except PyErr ℚ) × ℕ) × (ℕ → (Except PyErr ℚ) × ℕ)) →
    ℕ → ℚ → ℚ → ℚ → ℕ → (Except PyErr (ℚ × ℚ)) × ℕ
  | [], _, s, err, _, p => (.ok (s, err), p)
  | (ad, bd) :: rest, k, s, err, prev, p =>
    match ad p with
    | (.error e, p1) => (.error e, p1)
    | (.ok da, p1) =>
      match bd p1 with
      | (.error e, p2) => (.error e, p2)
      | (.ok db, p2) =>
        if k % 2 = 1 then
          let term := (db - da) * bernoulliQ (k+1) / (Nat.factorial (k+1) : ℚ)
          let mag := |term|
          if 4 < k ∧ mag < tol then (.ok (s + term, err), p2)
          else if 4 < k then
            if mag = 0 then (.error .zeroDivision, p2)
            else if |prev| / mag < reject then (.ok (s, err + mag), p2)
            else sumemLoop tol reject rest (k+1) (s + term) err term p2
          else sumemLoop tol reject rest (k+1) (s + term) err term p2
        else sumemLoop tol reject rest (k+1) s err prev p2

/-- Embeds the `s += f(x)/2` evaluation for a finite endpoint. -/
def halfEval (f : Pt → ℕ → (Except PyErr ℚ) × ℕ) (x : Pt) (p : ℕ) :
    (Except PyErr ℚ) × ℕ :=
  match f x p with
  | (.error e, p1) => (.error e, p1)
  | (.ok v, p1) => (.ok (v / 2), p1)

/-- The body of `sumem`'s `try:` block: elevate the precision by 10, run the
correction loop, add the endpoint corrections `f(a)/2` and `f(b)/2` (skipped
at infinite endpoints), then the tail integral: a caller-supplied `integral`
is used only when truthy (an explicit 0 falls through to quadrature, the
`if integral:` quirk), else the quadrature oracle contributes its value and
its error estimate. -/
def sumemBody (f : Pt → ℕ → (Except PyErr ℚ) × ℕ) (a b : Pt)
    (tol reject : ℚ) (integralOpt : Option ℚ)
    (zipped : List ((ℕ → (Except PyErr ℚ) × ℕ) × (ℕ → (Except PyErr ℚ) × ℕ)))
    (quadOr : ℕ → (Except PyErr (ℚ × ℚ)) × ℕ) (prec : ℕ) :
    (Except PyErr (ℚ × ℚ)) × ℕ :=
  match sumemLoop tol reject zipped 0 0 0 0 (prec + 10) with
  | (.error e, p) => (.error e, p)
  | (.ok (s, err), p) =>
    match (if a = Pt.ninf then ((.ok (0:ℚ)), p) else halfEval f a p) with
    | (.error e, p1) => (.error e, p1)
    | (.ok ca, p1) =>
      match (if b = Pt.pinf then ((.ok (0:ℚ)), p1) else halfEval f b p1) with
      | (.error e, p2) => (.error e, p2)
      | (.ok cb, p2) =>
        let s := s + ca + cb
        match integralOpt with
        | some integral =>
          if integral = 0 then
            match quadOr p2 with
            | (.error e, p3) => (.error e, p3)
            | (.ok (iv, ierr), p3) => (.ok (s + iv, err + ierr), p3)
          else (.ok (s + integral, err), p2)
        | none =>
          match quadOr p2 with
          | (.error e, p3) => (.error e, p3)
          | (.ok (iv, ierr), p3) => (.ok (s + iv, err + ierr), p3)

/-- A stream of 10000 zero derivatives (`(0 for n in xrange(M))`). -/
def zeroStream : List (ℕ → (Except PyErr ℚ) × ℕ) :=
  List.replicate 10000 (fun p => ((.ok (0:ℚ)), p))

/-- Embeds `sumem(f, interval, tol, reject, integral, adiffs, bdiffs, …)`.
`tol = tol or +eps` (an explicit 0 falls back to the current epsilon), the
derivative streams are replaced by zeros at an infinite endpoint, and the
entire computation sits in `try: mp.prec += 10 … finally: mp.prec = orig`,
so the returned register is always the entry register.  The final
`error`-flag shaping of the return value (pair vs bare estimate) is
omitted: both components are always computed. -/
def sumem (f : Pt → ℕ → (Except PyErr ℚ) × ℕ) (a b : Pt)
    (tolOpt : Option ℚ) (reject : ℚ) (integralOpt : Option ℚ)
    (adOpt bdOpt : Option (List (ℕ → (Except PyErr ℚ) × ℕ)))
    (dfltA dfltB : List (ℕ → (Except PyErr ℚ) × ℕ))
    (quadOr : ℕ → (Except PyErr (ℚ × ℚ)) × ℕ)
    (epsF : ℕ → ℚ) (prec : ℕ) : (Except PyErr (ℚ × ℚ)) × ℕ :=
  let tol := match tolOpt with
    | none => epsF prec
    | some t => if t = 0 then epsF prec else t
  let adiffs := if a = Pt.ninf then zeroStream else adOpt.getD dfltA
  let bdiffs := if b = Pt.pinf then zeroStream else bdOpt.getD dfltB
  ((sumemBody f a b tol reject integralOpt (adiffs.zip bdiffs) quadOr prec).1,
    prec)

/-- The truncation policy in the words of the (amended) spec sentence,
operating directly on the list of correction terms (`j` is the 1-based
correction-term counter): the first two correction terms are accumulated
unconditionally; from the third term on, a term with magnitude below the
tolerance is added and the series accepted, a term whose predecessor-to-
current magnitude ratio falls below the rejection ratio is instead added to
the error bound and the series rejected, and otherwise accumulation
continues. -/
def emTruncSpec (tol reject : ℚ) : List ℚ → ℕ → ℚ → ℚ → ℚ → ℚ × ℚ
  | [], _, s, err, _ => (s, err)
  | t :: rest, j, s, err, prev =>
    if j ≤ 2 then emTruncSpec tol reject rest (j+1) (s + t) err t
    else if |t| < tol then (s + t, err)
    else if |prev| / |t| < reject then (s, err + |t|)
    else emTruncSpec tol reject rest (j+1) (s + t) err t

/-- The correction terms arising from a zipped pure derivative stream:
entry `k` of the zip contributes `(db-da)·B_{k+1}/(k+1)!` when `k` is odd. -/
def emTermsAux : List (ℚ × ℚ) → ℕ → List ℚ
  | [], _ => []
  | (da, db) :: rest, k =>
    if k % 2 = 1 then
      ((db - da) * bernoulliQ (k+1) / (Nat.factorial (k+1) : ℚ)) ::
        emTermsAux rest (k+1)
    else emTermsAux rest (k+1)

/-- Lift a pure rational to an effectful stream element. -/
def pureElem (v : ℚ) : ℕ → (Except PyErr ℚ) × ℕ := fun p => (.ok v, p)

/-- Zero derivative stream at the left endpoint for the C7 counterexample. -/
def sumemDA : List ℚ := [0, 0, 0, 0, 0, 0, 0, 0, 0, 0]

/-- Right-endpoint derivative stream for the C7 counterexample, engineered
so the correction terms are `1, -1, 0, 1, 1`. -/
def sumemDB : List ℚ := [0, 12, 0, 720, 0, 0, 0, -1209600, 0, 47900160]

/-! ## The adaptive orchestrator: `adaptive_extrapolation(update, emfun, kwargs)`

Source (`calculus.py`, lines 459-572).  Effectful caller-supplied pieces
(`update`, `emfun`) take and return the precision register and may raise.
The `eps` constant evaluates at the current precision: `epsF`.  The
randomized-`shanks` draw stream is the oracle `rnd` (seed, draw index).
The unbounded `while 1:` loop takes fuel; exhausting fuel stands for the
source looping forever (`nonTermination`). -/
/-- Computes `method.split('+')` over the character list (the source splits the
method string on `'+'`; implemented on `List Char` so that concrete runs
evaluate). -/
def splitPlusAux : List Char → List Char → List (List Char)
  | [], acc => [acc.reverse]
  | c :: rest, acc =>
    if c = '+' then acc.reverse :: splitPlusAux rest []
    else splitPlusAux rest (c :: acc)

def methodTags (s : String) : List (List Char) := splitPlusAux s.toList []

/-- Modelled from the spec: the alternating-series detector
`mpc(sign(partial[-1]) / sign(partial[-2])).ae(-1)`.  `sign` values are
exactly `-1`, `0` or `1`, so the approximate comparison holds exactly when
the ratio is `-1`; a zero `sign(partial[-2])` makes the division raise.
(`sign` and `.ae` live outside `src/`.) -/
def emAlternatingTest (x y : ℚ) : Except PyErr Bool :=
  if signQ y = 0 then .error .zeroDivision
  else .ok (if signQ x / signQ y = -1 then true else false)

/-- The orchestrator's loop state: steps-iterator position, last batch
size, term index, partial sums, best estimate, last Richardson value,
Shanks table, and the three method flags. -/
structure ALoopSt where
  stepsIdx : ℕ
  step : ℕ
  index : ℕ
  psums : List ℚ
  best : ℚ
  lastRich : ℚ
  shanksTab : List (List ℚ)
  tryR : Bool
  tryS : Bool
  tryEM : Bool

/-- Result of one loop iteration: an early `return v`, a raised exception,
or the next loop state. -/
inductive StepRes
  | ret (v : ℚ) (p : ℕ)
  | err (e : PyErr) (p : ℕ)
  | cont (st : ALoopSt) (p : ℕ)

/-- The Richardson section of the loop body.  `.inl v` is `return value`;
`.inr` carries the updated `(TRY_RICHARDSON, last_richardson_value, error,
best)`. -/
def richStage (epsF : ℕ → ℚ) (tol : ℚ) (tryR : Bool) (psums : List ℚ)
    (lastRich error best : ℚ) (p : ℕ) :
    Except PyErr (Sum ℚ (Bool × ℚ × ℚ × ℚ)) :=
  if tryR then
    match richardsonChecked psums with
    | .error e => .error e
    | .ok (value, maxc) =>
      let richErr := |value - lastRich|
      if richErr ≤ tol then .ok (.inl value)
      else
        let tryR1 := if tol < epsF p * maxc then false else true
        if richErr < error then .ok (.inr (tryR1, value, richErr, value))
        else .ok (.inr (tryR1, value, error, best))
  else .ok (.inr (tryR, lastRich, error, best))

/-- The Shanks section of the loop body: extends the table with
`shanks(partial, shanks_table, randomized=True)` and reads the last row.
`.inl v` is `return est1`; `.inr` carries `(TRY_SHANKS, shanks_table,
error, best)`.  An empty extended table makes `shanks_table[-1]` raise.
In the two-entry-row branch the source leaves `maxc` stale and
`shanks_error = 0` forces `return est1` for every `tol ≥ 0`; the
pathological `tol < 0` fall-through is modelled as a plain continue. -/
def shanksStage (epsF : ℕ → ℚ) (rnd : ℕ → ℕ → ℕ) (tol : ℚ) (tryS : Bool)
    (psums : List ℚ) (shanksTab : List (List ℚ)) (error best : ℚ) (p : ℕ) :
    Except PyErr (Sum ℚ (Bool × List (List ℚ) × ℚ × ℚ)) :=
  if tryS then
    if psums.length < 2 then .error .assertionError
    else
      match shanksRandomized psums shanksTab (epsF p) rnd with
      | .error e => .error e
      | .ok tab =>
        match tab.getLast? with
        | none => .error .indexError
        | some row =>
          if row.length = 2 then
            let est1 := row.getD (row.length - 1) 0
            if (0:ℚ) ≤ tol then .ok (.inl est1)
            else .ok (.inr (tryS, tab, error, best))
          else
            let est1 := row.getD (row.length - 1) 0
            let maxc := |row.getD (row.length - 2) 0|
            let est2 := row.getD (row.length - 3) 0
            let shanksErr := |est1 - est2|
            if shanksErr ≤ tol then .ok (.inl est1)
            else
              let tryS1 := if tol < epsF p * maxc then false else true
              if shanksErr < error then .ok (.inr (tryS1, tab, shanksErr, est1))
              else .ok (.inr (tryS1, tab, error, best))
  else .ok (.inr (tryS, shanksTab, error, best))

/-- The Euler-Maclaurin section of the loop body.  `.inl v` is
`return value`; `.inr` carries `(TRY_EULER_MACLAURIN, best)` — note the
source updates `best` but not `error` here. -/
def emStage (emfun : ℕ → ℚ → ℕ → (Except PyErr (ℚ × ℚ)) × ℕ) (tol : ℚ)
    (tryEM : Bool) (index : ℕ) (psums : List ℚ) (error best : ℚ) (p : ℕ) :
    (Except PyErr (Sum ℚ (Bool × ℚ))) × ℕ :=
  if tryEM then
    match emAlternatingTest (psums.getD (psums.length - 1) 0)
        (psums.getD (psums.length - 2) 0) with
    | .error e => (.error e, p)
    | .ok true => ((.ok (.inr (false, best))), p)
    | .ok false =>
      match emfun (index + 1) tol p with
      | (.error e, p2) => (.error e, p2)
      | (.ok (v, emErr), p2) =>
        let value := v + psums.getD (psums.length - 1) 0
        if emErr ≤ tol then ((.ok (.inl value)), p2)
        else if emErr < error then ((.ok (.inr (true, value))), p2)
        else ((.ok (.inr (true, best))), p2)
  else ((.ok (.inr (tryEM, best))), p)

/-- One iteration of the orchestrator's `while 1:` body (after the
`maxterms` break check): draw the next batch size (`StopIteration` keeps
the previous one), generate the batch, check the direct error
(`IndexError` when fewer than 2 partial sums exist), then run the three
method sections in order. -/
def adaptStep (stepsFun : ℕ → Option ℕ)
    (update : List ℚ → List ℕ → ℕ → (Except PyErr (List ℚ)) × ℕ)
    (emfun : ℕ → ℚ → ℕ → (Except PyErr (ℚ × ℚ)) × ℕ)
    (epsF : ℕ → ℚ) (rnd : ℕ → ℕ → ℕ) (tol : ℚ)
    (st : ALoopSt) (p : ℕ) : StepRes :=
  let step := (stepsFun st.stepsIdx).getD st.step
  match update st.psums (List.range' st.index step) p with
  | (.error e, p1) => .err e p1
  | (.ok psums, p1) =>
    let index := st.index + step
    if psums.length < 2 then .err .indexError p1
    else
      let best0 := psums.getD (psums.length - 1) 0
      let derr0 := |best0 - psums.getD (psums.length - 2) 0|
      if derr0 ≤ tol then .ret best0 p1
      else
        match richStage epsF tol st.tryR psums st.lastRich derr0 best0 p1 with
        | .error e => .err e p1
        | .ok (.inl v) => .ret v p1
        | .ok (.inr (tryR1, lastRich1, err1, best1)) =>
          match shanksStage epsF rnd tol st.tryS psums st.shanksTab err1 best1 p1 with
          | .error e => .err e p1
          | .ok (.inl v) => .ret v p1
          | .ok (.inr (tryS1, tab1, err2, best2)) =>
            match emStage emfun tol st.tryEM index psums err2 best2 p1 with
            | (.error e, p2) => .err e p2
            | ((.ok (.inl v)), p2) => .ret v p2
            | ((.ok (.inr (tryEM1, best3))), p2) =>
              .cont (ALoopSt.mk (st.stepsIdx + 1) step index psums best3
                lastRich1 tab1 tryR1 tryS1 tryEM1) p2

/-- The orchestrator's main loop (`while 1:` with the `index >= maxterms`
break returning the tracked best). -/
def adaptLoop (stepsFun : ℕ → Option ℕ)
    (update : List ℚ → List ℕ → ℕ → (Except PyErr (List ℚ)) × ℕ)
    (emfun : ℕ → ℚ → ℕ → (Except PyErr (ℚ × ℚ)) × ℕ)
    (epsF : ℕ → ℚ) (rnd : ℕ → ℕ → ℕ) (tol : ℚ) (maxterms : ℕ) :
    ℕ → ALoopSt → ℕ → (Except PyErr ℚ) × ℕ
  | 0, _, p => (.error .nonTermination, p)
  | fuel+1, st, p =>
    if maxterms ≤ st.index then ((.ok st.best), p)
    else
      match adaptStep stepsFun update emfun epsF rnd tol st p with
      | .ret v p1 => ((.ok v), p1)
      | .err e p1 => (.error e, p1)
      | .cont st1 p1 =>
        adaptLoop stepsFun update emfun epsF rnd tol maxterms fuel st1 p1

/-- The steps iterator: a caller-supplied list, or the default
`xrange(10, 10**9, 10)` (values `10(n+1)`). -/
def stepsFunOf : Option (List ℕ) → ℕ → Option ℕ
  | some l => fun n => l.get? n
  | none => fun n => if n < 99999999 then some (10*(n+1)) else none

/-- Modelled from the spec: the decimal-digit count `mp.dps` of a binary
precision, used only for the default `maxterms ≈ 10 × dps`. -/
def dpsOf (p : ℕ) : ℕ := p * 30103 / 100000

/-- Embeds `adaptive_extrapolation(update, emfun, kwargs)`.  Options resolve as in
the source (`tol` defaults to `eps/2^10` at the entry precision,
`maxterms` to `10·dps`, `method` to `'r+s'`, `steps` to `10, 20, 30, …`).
The `if method in ('d', 'direct')` test in the source compares the split
LIST against two strings and never holds, so only the `else` branch
(membership tests for the six tags) is reachable; unknown tags simply
leave every flag false.  Precision is elevated (×4 with Richardson/Shanks,
else +30) and restored by `finally: mp.prec = orig` on every path. -/
def adaptive_extrapolation
    (update : List ℚ → List ℕ → ℕ → (Except PyErr (List ℚ)) × ℕ)
    (emfun : ℕ → ℚ → ℕ → (Except PyErr (ℚ × ℚ)) × ℕ)
    (epsF : ℕ → ℚ) (rnd : ℕ → ℕ → ℕ)
    (tolOpt : Option ℚ) (maxtermsOpt : Option ℕ) (methodOpt : Option String)
    (stepsOpt : Option (List ℕ)) (fuel : ℕ) (prec : ℕ) :
    (Except PyErr ℚ) × ℕ :=
  let tol := tolOpt.getD (epsF prec / 2^10)
  let maxterms := maxtermsOpt.getD (dpsOf prec * 10)
  let ml := methodTags (methodOpt.getD "r+s")
  let tryR := ml.contains ("r".toList) || ml.contains ("richardson".toList)
  let tryS := ml.contains ("s".toList) || ml.contains ("shanks".toList)
  let tryEM := ml.contains ("e".toList) || ml.contains ("euler-maclaurin".toList)
  let p := if tryR || tryS then prec * 4 else prec + 30
  ((adaptLoop (stepsFunOf stepsOpt) update emfun epsF rnd tol maxterms fuel
      (ALoopSt.mk 0 10 0 [] 0 0 [] tryR tryS tryEM) p).1, prec)

/-- The cumulative partial sums appended by `nsum`'s `update` closure. -/
def nsumPartials (f : ℤ → ℚ) (a : ℤ) : ℚ → List ℕ → List ℚ
  | _, [] => []
  | psum, k :: rest =>
    (psum + f (a + (k:ℤ))) :: nsumPartials f a (psum + f (a + (k:ℤ))) rest

/-- The `update` closure `nsum` hands the orchestrator: extends the
partial-sum list by `f(a + k)` for each index of the batch, starting from
the last partial sum (or 0 for an empty list); pure and total. -/
def nsumUpdate (f : ℤ → ℚ) (a : ℤ) :
    List ℚ → List ℕ → ℕ → (Except PyErr (List ℚ)) × ℕ :=
  fun psums idxs p => ((.ok (psums ++ nsumPartials f a (psums.getLastD 0) idxs)), p)

/-! ### Claim C8 -/
/-- The terms of the C8 counterexample series: `1, -1/2, 0, 0, …` — the two
most recent raw terms after the first batch have sign ratio `-1`. -/
def emCexTerms : ℤ → ℚ := fun k => if k = 0 then 1 else if k = 1 then -1/2 else 0

/-- The constant caller pieces used by the C8 witness. -/
def cexUpdate : List ℚ → List ℕ → ℕ → (Except PyErr (List ℚ)) × ℕ :=
  fun _ _ pr => ((.ok [(1:ℚ), 1/2]), pr)

/-! ## List helpers -/
theorem getDAppendLeft {α : Type} : ∀ (l t : List α) (n : ℕ) (d : α),
    n < l.length → (l ++ t).getD n d = l.getD n d
  | a :: l, t, 0, d, _ => rfl
  | a :: l, t, n+1, d, h => getDAppendLeft l t n d (by simpa using h)
  | [], _, n, d, h => absurd h (by simp)

theorem getDAppendLength {α : Type} : ∀ (l : List α) (x : α) (d : α),
    (l ++ [x]).getD l.length d = x
  | [], x, d => rfl
  | a :: l, x, d => getDAppendLength l x d

theorem getDDropLast {α : Type} : ∀ (l : List α) (n : ℕ) (d : α),
    n + 1 < l.length → l.dropLast.getD n d = l.getD n d
  | a :: b :: l, 0, d, _ => rfl
  | a :: b :: l, n+1, d, h => getDDropLast (b :: l) n d (by simpa using h)
  | [], n, d, h => absurd h (by simp)
  | [a], 0, d, h => absurd h (by simp)
  | [a], n+1, d, h => absurd h (by simp)

theorem dropLastAppendGetD {α : Type} : ∀ (l : List α) (d : α), l ≠ [] →
    l.dropLast ++ [l.getD (l.length - 1) d] = l
  | [], d, h => absurd rfl h
  | [a], d, _ => rfl
  | a :: b :: l, d, _ => by
      have ih := dropLastAppendGetD (b :: l) d (by simp)
      simpa [List.dropLast] using congrArg (a :: ·) ih

theorem prefixDropLast {α : Type} {l₁ l₂ : List α} (h : l₁ <+: l₂)
    (hlt : l₁.length < l₂.length) : l₁ <+: l₂.dropLast := by
  obtain ⟨t, rfl⟩ := h
  rcases List.eq_nil_or_concat t with rfl | ⟨t', x, rfl⟩
  · simp at hlt
  · rw [List.concat_eq_append, ← List.append_assoc, List.dropLast_concat]
    exact ⟨t', rfl⟩

/-! ### Basic structure of the epsilon table -/
theorem getDPre {α : Type} {p s : List α} (h : p <+: s) {k : ℕ} (hk : k < p.length)
    (d : α) : p.getD k d = s.getD k d := by
  obtain ⟨t, rfl⟩ := h
  exact (getDAppendLeft p t k d hk).symm

theorem shanksRowAux_length (seq prev : List ℚ) (i : ℕ) :
    ∀ (n j : ℕ) (row r : List ℚ), shanksRowAux seq prev i n j row = some r →
      r.length = row.length + n := by
  intro n
  induction n with
  | zero => intro j row r h; cases h; simp
  | succ n ih =>
    intro j row r h
    simp only [shanksRowAux] at h
    split at h
    · exact absurd h (by simp)
    · have := ih (j+1) _ r h
      simp only [List.length_append, List.length_cons, List.length_nil] at this
      omega

theorem shanksRow_length {seq prev : List ℚ} {i : ℕ} {r : List ℚ}
    (h : shanksRow seq prev i = some r) : r.length = i + 1 := by
  simpa using shanksRowAux_length seq prev i (i+1) 0 [] r h

/-- Row 0 of the table never looks at the previous row (for `i = 0` the only
column is `j = 0`, which uses `seq` alone). -/
theorem shanksRow_zero (seq prev prev' : List ℚ) :
    shanksRow seq prev 0 = shanksRow seq prev' 0 := by
  simp [shanksRow, shanksRowAux, shanksA, shanksB]

/-- Row `i` only reads `seq` at indices `i` and `i+1`, so a prefix agreeing
there builds the same row. -/
theorem shanksRow_agree {p s : List ℚ} (hp : p <+: s) {i : ℕ}
    (hi : i + 1 < p.length) (prev : List ℚ) :
    shanksRow p prev i = shanksRow s prev i := by
  have hA : ∀ j, shanksA p prev i j = shanksA s prev i j := by
    intro j
    simp only [shanksA]
    rw [getDPre hp (by omega) (0:ℚ)]
  have hB : ∀ row j, shanksB p prev row i j = shanksB s prev row i j := by
    intro row j
    simp only [shanksB]
    rw [getDPre hp (show i + 1 < p.length from hi) (0:ℚ),
      getDPre hp (show i < p.length by omega) (0:ℚ)]
  suffices h : ∀ n j row, shanksRowAux p prev i n j row = shanksRowAux s prev i n j row by
    exact h (i+1) 0 []
  intro n
  induction n with
  | zero => intro j row; rfl
  | succ n ih =>
    intro j row
    simp only [shanksRowAux, hA, hB]
    split
    · rfl
    · exact ih (j+1) _

theorem shanksLoop_length_le (seq : List ℚ) :
    ∀ (n : ℕ) (t : List (List ℚ)), (shanksLoop seq n t).length ≤ t.length + n := by
  intro n
  induction n with
  | zero => intro t; simp [shanksLoop]
  | succ n ih =>
    intro t
    simp only [shanksLoop]
    cases hrow : shanksRow seq (t.getD (t.length - 1) []) t.length with
    | none =>
      simp only []
      split
      · simp [List.length_dropLast]; omega
      · omega
    | some row =>
      simp only []
      have := ih (t ++ [row])
      simp only [List.length_append, List.length_cons, List.length_nil] at this
      omega

theorem shanksLoop_length_even (seq : List ℚ) :
    ∀ (n : ℕ) (t : List (List ℚ)), (t.length + n) % 2 = 0 →
      (shanksLoop seq n t).length % 2 = 0 := by
  intro n
  induction n with
  | zero => intro t ht; simpa [shanksLoop] using ht
  | succ n ih =>
    intro t ht
    simp only [shanksLoop]
    cases hrow : shanksRow seq (t.getD (t.length - 1) []) t.length with
    | none =>
      simp only []
      split
      · rename_i hodd
        simp only [List.length_dropLast]
        omega
      · rename_i heven
        omega
    | some row =>
      simp only []
      apply ih
      simp only [List.length_append, List.length_cons, List.length_nil]
      omega

/-- The starting table survives as a prefix of the loop output (only freshly
appended rows are ever dropped, thanks to the parity discipline). -/
theorem shanksLoop_extends (seq : List ℚ) {t₀ : List (List ℚ)}
    (h₀ : t₀.length % 2 = 0) :
    ∀ (n : ℕ) (t : List (List ℚ)), t₀ <+: t → t₀ <+: shanksLoop seq n t := by
  intro n
  induction n with
  | zero => intro t ht; simpa [shanksLoop] using ht
  | succ n ih =>
    intro t ht
    simp only [shanksLoop]
    cases hrow : shanksRow seq (t.getD (t.length - 1) []) t.length with
    | none =>
      simp only []
      split
      · rename_i hodd
        refine prefixDropLast ht ?_
        have hle := ht.length_le
        omega
      · exact ht
    | some row =>
      exact ih (t ++ [row]) (ht.trans ⟨[row], rfl⟩)

/-- Composition when the first run used up all its fuel (no degenerate
denominator): running the loop further is the same as one longer run. -/
theorem shanksLoop_comp (seq : List ℚ) :
    ∀ (m : ℕ) (t : List (List ℚ)), (shanksLoop seq m t).length = t.length + m →
      ∀ k, shanksLoop seq k (shanksLoop seq m t) = shanksLoop seq (m + k) t := by
  intro m
  induction m with
  | zero => intro t _ k; simp [shanksLoop]
  | succ m ih =>
    intro t hc k
    have hstep : ∀ fuel : ℕ, shanksLoop seq (fuel + 1) t =
        match shanksRow seq (t.getD (t.length - 1) []) t.length with
        | none => if t.length % 2 = 1 then t.dropLast else t
        | some row => shanksLoop seq fuel (t ++ [row]) := by
      intro fuel; rfl
    cases hrow : shanksRow seq (t.getD (t.length - 1) []) t.length with
    | none =>
      exfalso
      rw [hstep m, hrow] at hc
      simp only [] at hc
      split at hc
      · simp only [List.length_dropLast] at hc; omega
      · omega
    | some row =>
      rw [hstep m, hrow, Nat.add_right_comm m 1 k, hstep (m + k), hrow]
      simp only []
      apply ih
      rw [hstep m, hrow] at hc
      simp only [List.length_append, List.length_cons, List.length_nil] at hc ⊢
      omega

/-- Extra fuel is irrelevant once the loop exits early on a degenerate
denominator. -/
theorem shanksLoop_absorb (seq : List ℚ) :
    ∀ (m : ℕ) (t : List (List ℚ)), (shanksLoop seq m t).length < t.length + m →
      ∀ k, m ≤ k → shanksLoop seq k t = shanksLoop seq m t := by
  intro m
  induction m with
  | zero => intro t ht; simp [shanksLoop] at ht
  | succ m ih =>
    intro t ht k hk
    obtain ⟨k, rfl⟩ : ∃ k', k = k' + 1 := ⟨k - 1, by omega⟩
    have hstep : ∀ (fuel : ℕ) (u : List (List ℚ)), shanksLoop seq (fuel + 1) u =
        match shanksRow seq (u.getD (u.length - 1) []) u.length with
        | none => if u.length % 2 = 1 then u.dropLast else u
        | some row => shanksLoop seq fuel (u ++ [row]) := by
      intro fuel u; rfl
    cases hrow : shanksRow seq (t.getD (t.length - 1) []) t.length with
    | none =>
      rw [hstep m t, hstep k t, hrow]
    | some row =>
      rw [hstep m t, hstep k t, hrow]
      simp only []
      apply ih
      · rw [hstep m t, hrow] at ht
        simp only [List.length_append, List.length_cons, List.length_nil] at ht ⊢
        omega
      · omega

theorem lastOk_append {seq : List ℚ} {t : List (List ℚ)} {row : List ℚ}
    (hrow : shanksRow seq (t.getD (t.length - 1) []) t.length = some row) :
    LastOk seq (t ++ [row]) := by
  right
  rcases List.eq_nil_or_concat t with rfl | ⟨t', x, rfl⟩
  · have hg : shanksRow seq row 0 = some row := by
      rw [shanksRow_zero seq row []]
      simpa using hrow
    simpa using hg
  · rw [List.concat_eq_append] at *
    have hL3 : (t' ++ [x] ++ [row]).length = t'.length + 2 := by simp
    rw [hL3, show t'.length + 2 - 2 = t'.length by omega,
      show t'.length + 2 - 1 = t'.length + 1 by omega]
    have hg1 : (t' ++ [x] ++ [row]).getD t'.length [] = (t' ++ [x]).getD t'.length [] :=
      getDAppendLeft (t' ++ [x]) [row] t'.length [] (by simp)
    have hg2 : (t' ++ [x] ++ [row]).getD (t'.length + 1) [] = row := by
      have := getDAppendLength (t' ++ [x]) row []
      simpa using this
    rw [hg1, hg2]
    have hL2 : (t' ++ [x]).length = t'.length + 1 := by simp
    rw [hL2, show t'.length + 1 - 1 = t'.length by omega] at hrow
    exact hrow

/-- Once the loop has exited early, re-running it on its own output (with any
fuel other than exactly 1) returns the output unchanged. -/
theorem shanksLoop_fix (seq : List ℚ) :
    ∀ (m : ℕ) (t : List (List ℚ)), LastOk seq t →
      (shanksLoop seq m t).length < t.length + m →
      ∀ k, k ≠ 1 → shanksLoop seq k (shanksLoop seq m t) = shanksLoop seq m t := by
  intro m
  induction m with
  | zero => intro t _ ht; simp [shanksLoop] at ht
  | succ m ih =>
    intro t hLO ht k hk
    have hstep : ∀ (fuel : ℕ) (u : List (List ℚ)), shanksLoop seq (fuel + 1) u =
        match shanksRow seq (u.getD (u.length - 1) []) u.length with
        | none => if u.length % 2 = 1 then u.dropLast else u
        | some row => shanksLoop seq fuel (u ++ [row]) := by
      intro fuel u; rfl
    cases hrow : shanksRow seq (t.getD (t.length - 1) []) t.length with
    | some row =>
      rw [hstep m t, hrow]
      simp only []
      apply ih (t ++ [row]) (lastOk_append hrow)
      · rw [hstep m t, hrow] at ht
        simp only [List.length_append, List.length_cons, List.length_nil] at ht ⊢
        omega
      · exact hk
    | none =>
      rw [hstep m t, hrow]
      simp only []
      split
      · -- odd exit: the last (freshly recomputed) row is dropped; any rerun
        -- with fuel ≥ 2 rebuilds it and hits the same zero denominator.
        rename_i hodd
        have htne : t ≠ [] := by
          intro h; subst h; simp at hodd
        rcases Nat.eq_zero_or_pos k with rfl | hkpos
        · rfl
        obtain ⟨k', rfl⟩ : ∃ k', k = k' + 1 + 1 := ⟨k - 2, by omega⟩
        have hLO' : shanksRow seq (t.getD (t.length - 2) []) (t.length - 1) =
            some (t.getD (t.length - 1) []) := by
          rcases hLO with h | h
          · exact absurd h htne
          · exact h
        have hlenDL : t.dropLast.length = t.length - 1 := by
          simp [List.length_dropLast]
        have hrow2 : shanksRow seq (t.dropLast.getD (t.dropLast.length - 1) [])
            t.dropLast.length = some (t.getD (t.length - 1) []) := by
          rcases Nat.lt_or_ge t.length 2 with hsmall | hbig
          · -- t.length = 1 : dropLast is empty, row 0 ignores prev
            have hlen1 : t.length = 1 := by omega
            rw [hlen1] at hLO'
            norm_num at hLO'
            rw [hlenDL, hlen1]
            norm_num
            exact (shanksRow_zero seq (t.dropLast.getD 0 []) (t.getD 0 [])).trans hLO'
          · rw [hlenDL]
            have hget : t.dropLast.getD (t.length - 1 - 1) [] = t.getD (t.length - 2) [] := by
              rw [show t.length - 1 - 1 = t.length - 2 by omega]
              exact getDDropLast t (t.length - 2) [] (by omega)
            rw [hget]
            exact hLO'
        rw [hstep (k' + 1) t.dropLast, hrow2]
        simp only []
        have hre : t.dropLast ++ [t.getD (t.length - 1) []] = t :=
          dropLastAppendGetD t [] htne
        rw [hre, hstep k' t, hrow]
        simp only []
        rw [if_pos hodd]
      · -- even exit: the rerun immediately hits the same zero denominator.
        rename_i heven
        rcases Nat.eq_zero_or_pos k with rfl | hkpos
        · rfl
        obtain ⟨k', rfl⟩ : ∃ k', k = k' + 1 := ⟨k - 1, by omega⟩
        rw [hstep k' t, hrow]
        simp only []
        rw [if_neg heven]

theorem shanksSTOP_even (n : ℕ) : shanksSTOP n % 2 = 0 := by
  simp only [shanksSTOP]
  split <;> omega

theorem shanksSTOP_le (n : ℕ) : shanksSTOP n ≤ n - 1 := by
  simp only [shanksSTOP]
  split <;> omega

theorem shanksSTOP_mono {m n : ℕ} (h : m ≤ n) : shanksSTOP m ≤ shanksSTOP n := by
  simp only [shanksSTOP]
  split <;> split <;> omega

/-- Prefix agreement for the whole loop (all rows built from a prefix agree
with rows built from the full sequence). -/
theorem shanksLoop_agree {p s : List ℚ} (hp : p <+: s) :
    ∀ (n : ℕ) (t : List (List ℚ)), t.length + n ≤ p.length - 1 →
      shanksLoop p n t = shanksLoop s n t := by
  intro n
  induction n with
  | zero => intro t _; rfl
  | succ n ih =>
    intro t ht
    have hi : t.length + 1 < p.length := by omega
    have hstepP : ∀ (fuel : ℕ) (u : List (List ℚ)), shanksLoop p (fuel + 1) u =
        match shanksRow p (u.getD (u.length - 1) []) u.length with
        | none => if u.length % 2 = 1 then u.dropLast else u
        | some row => shanksLoop p fuel (u ++ [row]) := by
      intro fuel u; rfl
    have hstepS : ∀ (fuel : ℕ) (u : List (List ℚ)), shanksLoop s (fuel + 1) u =
        match shanksRow s (u.getD (u.length - 1) []) u.length with
        | none => if u.length % 2 = 1 then u.dropLast else u
        | some row => shanksLoop s fuel (u ++ [row]) := by
      intro fuel u; rfl
    rw [hstepP n t, hstepS n t,
      shanksRow_agree hp hi (t.getD (t.length - 1) [])]
    cases hrow : shanksRow s (t.getD (t.length - 1) []) t.length with
    | none => rfl
    | some row =>
      simp only []
      apply ih
      simp only [List.length_append, List.length_cons, List.length_nil]
      omega

/-- Every row of the table output by the loop has length one more than its
index, provided the starting table does. -/
theorem shanksLoop_rowLength (seq : List ℚ) :
    ∀ (n : ℕ) (t : List (List ℚ)),
      (∀ k, k < t.length → (t.getD k []).length = k + 1) →
      ∀ k, k < (shanksLoop seq n t).length →
        ((shanksLoop seq n t).getD k []).length = k + 1 := by
  intro n
  induction n with
  | zero => intro t ht; simpa [shanksLoop] using ht
  | succ n ih =>
    intro t ht
    simp only [shanksLoop]
    cases hrow : shanksRow seq (t.getD (t.length - 1) []) t.length with
    | none =>
      simp only []
      split
      · intro k hk
        simp only [List.length_dropLast] at hk
        rw [getDDropLast t k [] (by omega)]
        exact ht k (by omega)
      · exact ht
    | some row =>
      simp only []
      apply ih
      intro k hk
      simp only [List.length_append, List.length_cons, List.length_nil] at hk
      rcases Nat.lt_or_ge k t.length with hlt | hge
      · rw [getDAppendLeft t [row] k [] hlt]
        exact ht k hlt
      · have hk' : k = t.length := by omega
        subst hk'
        rw [getDAppendLength t row []]
        exact shanksRow_length hrow

/-! ### Claim C1 -/
/-- C1: incremental extension of a Wynn table.  For every term sequence `s`
and every prefix `p` of `s` with at least 2 elements, calling `shanks` on `p`
and then calling `shanks` on `s` with the resulting table appends only new
rows (the first table is a prefix of the second), and the extended table
equals the table of a from-scratch call of `shanks` on `s` with no table —
in particular every row index present in both carries exactly the same row. -/
theorem shanks_incremental_extension (p s : List ℚ) (hp : p <+: s)
    (h2 : 2 ≤ p.length) :
    shanks p [] <+: shanks s (shanks p []) ∧
      shanks s (shanks p []) = shanks s [] := by
  clear h2
  have hM : shanksSTOP p.length ≤ p.length - 1 := shanksSTOP_le p.length
  have hMN : shanksSTOP p.length ≤ shanksSTOP s.length :=
    shanksSTOP_mono hp.length_le
  set M := shanksSTOP p.length with hMdef
  set N := shanksSTOP s.length with hNdef
  have hT1 : shanks p [] = shanksLoop s M [] := by
    rw [shanks, shanksLoop_agree hp (M - ([] : List (List ℚ)).length) []
      (by simpa using hM)]
    simp
  have hLle : (shanksLoop s M []).length ≤ M := by
    simpa using shanksLoop_length_le s M []
  have hLev : (shanksLoop s M []).length % 2 = 0 := by
    apply shanksLoop_length_even
    simpa using shanksSTOP_even p.length
  have hNev : N % 2 = 0 := shanksSTOP_even s.length
  have hT2 : shanks s (shanks p []) =
      shanksLoop s (N - (shanksLoop s M []).length) (shanksLoop s M []) := by
    rw [shanks, hT1]
  rcases Nat.lt_or_ge (shanksLoop s M []).length M with hearly | hfull
  · -- the prefix run hit an exact-zero denominator and truncated
    have habs : shanksLoop s N [] = shanksLoop s M [] := by
      apply shanksLoop_absorb s M [] (by simpa using hearly) N hMN
    have hfix : shanksLoop s (N - (shanksLoop s M []).length) (shanksLoop s M []) =
        shanksLoop s M [] := by
      apply shanksLoop_fix s M [] (Or.inl rfl) (by simpa using hearly)
      omega
    constructor
    · rw [hT2, hfix, hT1]
    · rw [hT2, hfix, shanks]
      simp only [List.length_nil, Nat.sub_zero]
      exact habs.symm
  · -- the prefix run completed all M rows
    have hfull' : (shanksLoop s M []).length = ([] : List (List ℚ)).length + M := by
      simp; omega
    constructor
    · rw [hT2, hT1]
      exact shanksLoop_extends s hLev (N - (shanksLoop s M []).length)
        (shanksLoop s M []) (List.prefix_rfl)
    · rw [hT2, shanksLoop_comp s M [] hfull' (N - (shanksLoop s M []).length),
        shanks]
      have : M + (N - (shanksLoop s M []).length) = N := by omega
      simp [this]

/-- Witness for C1 at a concrete input: `p = [1/2, 3/4]` is a length-2 prefix
of `s = [1/2, 3/4, 7/8]`. -/
theorem shanks_incremental_extension_witness :
    ([1/2, 3/4] : List ℚ) <+: [1/2, 3/4, 7/8] ∧ 2 ≤ ([1/2, 3/4] : List ℚ).length ∧
      (shanks [1/2, 3/4] [] <+: shanks [1/2, 3/4, 7/8] (shanks [1/2, 3/4] []) ∧
        shanks [1/2, 3/4, 7/8] (shanks [1/2, 3/4] []) = shanks [1/2, 3/4, 7/8] []) :=
  ⟨⟨[7/8], rfl⟩, by norm_num,
    shanks_incremental_extension [1/2, 3/4] [1/2, 3/4, 7/8] ⟨[7/8], rfl⟩ (by norm_num)⟩

/-! ### Claim C4 -/
/-- C4 counterexample: on the exactly-geometric docstring input
`[0.5, 0.75, 0.875, 0.9375, 0.96875]` (length 5 ≥ 2), deterministic `shanks`
truncates at the exact-zero denominator and returns a nonempty table whose
last row has length 2 — an even length, not an odd one as claimed.  (The
last *column index* is odd, which is what makes the final entry a genuine
estimate: odd columns hold the extrapolates.) -/
theorem shanks_last_row_odd_counterexample :
    2 ≤ geoSeq.length ∧ shanks geoSeq [] ≠ [] ∧
      ¬ (((shanks geoSeq []).getD ((shanks geoSeq []).length - 1) []).length % 2 = 1) := by
  have h : shanks geoSeq [] = [[4], [8, 1]] := by
    norm_num [shanks, shanksSTOP, shanksLoop, shanksRow, shanksRowAux, shanksA,
      shanksB, geoSeq]
  refine ⟨by norm_num [geoSeq], by rw [h]; simp, by rw [h]; simp⟩

/-- C4 (amended): for every input sequence of length ≥ 2, the table returned
by deterministic `shanks` (from an empty table) has an even number of rows,
and row `k` has length `k+1`; hence whenever the table is nonempty its last
row has even length, so the last entry of the last row sits in an
odd-indexed column — the column parity that holds genuine limit estimates. -/
theorem shanks_last_row_parity (seq : List ℚ) (h2 : 2 ≤ seq.length) :
    (shanks seq []).length % 2 = 0 ∧
      ∀ k, k < (shanks seq []).length →
        ((shanks seq []).getD k []).length = k + 1 := by
  clear h2
  constructor
  · apply shanksLoop_length_even
    simpa using shanksSTOP_even seq.length
  · apply shanksLoop_rowLength
    intro k hk
    simp at hk

/-- Witness for C4 (amended) at the concrete geometric input. -/
theorem shanks_last_row_parity_witness :
    2 ≤ geoSeq.length ∧
      ((shanks geoSeq []).length % 2 = 0 ∧
        ∀ k, k < (shanks geoSeq []).length →
          ((shanks geoSeq []).getD k []).length = k + 1) :=
  ⟨by norm_num [geoSeq], shanks_last_row_parity geoSeq (by norm_num [geoSeq])⟩

/-! ### Claim C5 -/
/-- C5: evaluation of the code at the failing configuration.  When the
pseudorandom 10-bit draw used to replace an exact-zero denominator is 0
(Python's `Random(seed).getrandbits(10)` does return 0 for reachable seeds,
e.g. the first draw at seed 1514), the "replacement" `b = 0*eps` is still
zero and `one/b` raises `ZeroDivisionError`: on the exactly-geometric
docstring input, randomized `shanks` crashes rather than continuing. -/
theorem shanksRandomized_zero_draw_crash :
    2 ≤ geoSeq.length ∧
      shanksRandomized geoSeq [] (1/2^52) (fun _ _ => 0) =
        .error PyErr.zeroDivision := by
  constructor
  · norm_num [geoSeq]
  · norm_num [shanksRandomized, shanksSTOP, shanksRLoop, shanksRRow,
      shanksRRowAux, shanksA, shanksB, geoSeq]

/-- C5 (intended guarantee): whenever every 10-bit draw consumed is nonzero
and the machine epsilon is nonzero, randomized `shanks` indeed never fails —
every exact-zero denominator is replaced by a nonzero multiple of epsilon
and the computation continues to a full table. -/
theorem shanksRRowAux_ok (seq : List ℚ) (epsv : ℚ) (r0 : ℕ → ℕ)
    (heps : epsv ≠ 0) (hr : ∀ d, r0 d ≠ 0) (prev : List ℚ) (i : ℕ) :
    ∀ (fuel j d : ℕ) (row : List ℚ),
      ∃ r d', shanksRRowAux seq prev epsv r0 i fuel j d row = .ok (r, d') := by
  intro fuel
  induction fuel with
  | zero => intro j d row; exact ⟨row, d, rfl⟩
  | succ fuel ihf =>
    intro j d row
    simp only [shanksRRowAux]
    split
    · rw [if_neg (mul_ne_zero (Nat.cast_ne_zero.2 (hr d)) heps)]
      exact ihf (j+1) (d+1) _
    · exact ihf (j+1) d _

theorem shanksRLoop_ok (seq : List ℚ) (epsv : ℚ) (r0 : ℕ → ℕ)
    (heps : epsv ≠ 0) (hr : ∀ d, r0 d ≠ 0) :
    ∀ (n d : ℕ) (table : List (List ℚ)),
      ∃ t, shanksRLoop seq epsv r0 n d table = .ok t := by
  intro n
  induction n with
  | zero => intro d table; exact ⟨table, rfl⟩
  | succ n ih =>
    intro d table
    simp only [shanksRLoop, shanksRRow]
    obtain ⟨r, d', hrow⟩ := shanksRRowAux_ok seq epsv r0 heps hr
      (table.getD (table.length - 1) []) table.length (table.length + 1) 0 d []
    rw [hrow]
    exact ih d' (table ++ [r])

/-- C5 (intended guarantee): whenever every 10-bit draw consumed is nonzero
and the machine epsilon is nonzero, randomized `shanks` indeed never fails —
every exact-zero denominator is replaced by a nonzero multiple of epsilon
and the computation continues to a full table. -/
theorem shanksRandomized_ok_of_draws_ne_zero (seq : List ℚ)
    (table : List (List ℚ)) (epsv : ℚ) (rnd : ℕ → ℕ → ℕ)
    (heps : epsv ≠ 0) (hrnd : ∀ s d, rnd s d ≠ 0) :
    ∃ t, shanksRandomized seq table epsv rnd = .ok t := by
  rw [shanksRandomized]
  exact shanksRLoop_ok seq epsv (rnd table.length) heps (hrnd table.length) _ 0 table

theorem richLoop_zero (sq : List ℚ) (N k : ℕ) (s c maxc : ℚ) :
    richLoop sq N 0 k s c maxc = (s, maxc) := rfl

theorem richLoop_succ (sq : List ℚ) (N cnt k : ℕ) (s c maxc : ℚ) :
    richLoop sq N (cnt+1) k s c maxc =
      richLoop sq N cnt (k+1) (s + c * sq.getD (N+k) 0)
        (c * (((k:ℚ) - (N:ℚ)) * ((k:ℚ) + (N:ℚ) + 1)^N) /
          ((1 + (k:ℚ)) * ((k:ℚ) + (N:ℚ))^N))
        (max |c| maxc) := rfl

theorem richWeight_zero (N : ℕ) :
    richWeight N 0 = (-1)^N * (N:ℚ)^N / (Nat.factorial N : ℚ) := by
  simp [richWeight]

theorem richWeight_succ (N k : ℕ) (hk : k < N) :
    richWeight N (k+1) = richWeight N k * (((k:ℚ) - (N:ℚ)) * ((k:ℚ) + (N:ℚ) + 1)^N) /
      ((1 + (k:ℚ)) * ((k:ℚ) + (N:ℚ))^N) := by
  have hsub : N - k = (N - (k+1)) + 1 := by omega
  have hkN : ((k:ℚ) + (N:ℚ)) ≠ 0 := by
    have h : ((k + N : ℕ) : ℚ) ≠ 0 := Nat.cast_ne_zero.2 (by omega)
    push_cast at h
    exact h
  have hk1 : (1 + (k:ℚ)) ≠ 0 := by positivity
  have hfk : ((Nat.factorial k : ℕ) : ℚ) ≠ 0 :=
    Nat.cast_ne_zero.2 (Nat.factorial_ne_zero k)
  have hfk1 : ((Nat.factorial (N - (k+1)) : ℕ) : ℚ) ≠ 0 :=
    Nat.cast_ne_zero.2 (Nat.factorial_ne_zero _)
  have hpow : ((k:ℚ) + (N:ℚ))^N ≠ 0 := pow_ne_zero N hkN
  have hNk2 : (N:ℚ) - (k:ℚ) ≠ 0 :=
    sub_ne_zero_of_ne (Nat.cast_lt.2 hk).ne'
  rw [richWeight, richWeight, hsub, Nat.factorial_succ (N - (k+1)),
    Nat.factorial_succ k]
  have hc1 : ((N - (k+1) + 1 : ℕ) : ℚ) = (N:ℚ) - (k:ℚ) := by
    have : (N - (k+1) + 1 : ℕ) = N - k := by omega
    rw [this, Nat.cast_sub (by omega : k ≤ N)]
  have hc2 : ((N + (k+1) : ℕ) : ℚ)^N = ((k:ℚ) + (N:ℚ) + 1)^N := by
    congr 1
    push_cast
    ring
  have hc3 : ((N + k : ℕ) : ℚ)^N = ((k:ℚ) + (N:ℚ))^N := by
    congr 1
    push_cast
    ring
  have hc4 : (-1 : ℚ)^(k+1+N) = (-1)^(k+N) * (-1) := by
    rw [show k+1+N = (k+N)+1 by omega, pow_succ]
  push_cast [hc1, hc2, hc3, hc4]
  field_simp
  ring

/-- Loop invariant for `richardson`: starting at column `k` with the
closed-form weight, the loop accumulates the weighted sum of the remaining
columns, and its `maxc` output is an upper bound of the running `maxc` and
of all remaining weight magnitudes, attained either at the initial `maxc`
or at one of those weights. -/
theorem richLoop_spec (sq : List ℚ) (N : ℕ) :
    ∀ (cnt k : ℕ) (s maxc : ℚ), k + cnt ≤ N + 1 →
      (richLoop sq N cnt k s (richWeight N k) maxc).1 =
          s + ∑ j in Finset.range cnt, richWeight N (k+j) * sq.getD (N+k+j) 0 ∧
        maxc ≤ (richLoop sq N cnt k s (richWeight N k) maxc).2 ∧
        (∀ j, j < cnt → |richWeight N (k+j)| ≤
          (richLoop sq N cnt k s (richWeight N k) maxc).2) ∧
        ((richLoop sq N cnt k s (richWeight N k) maxc).2 = maxc ∨
          ∃ j, j < cnt ∧
            (richLoop sq N cnt k s (richWeight N k) maxc).2 = |richWeight N (k+j)|) := by
  intro cnt
  induction cnt with
  | zero =>
    intro k s maxc hb
    refine ⟨by simp [richLoop], le_refl _, ?_, Or.inl rfl⟩
    intro j hj
    exact absurd hj (by omega)
  | succ cnt ih =>
    intro k s maxc hb
    rw [richLoop_succ]
    cases cnt with
    | zero =>
      -- final iteration: one more term, then the loop returns
      rw [richLoop_zero]
      refine ⟨?_, ?_, ?_, ?_⟩
      · simp
      · exact le_max_right _ _
      · intro j hj
        have hj0 : j = 0 := by omega
        subst hj0
        simpa using le_max_left _ _
      · rcases max_choice |richWeight N k| maxc with h | h
        · exact Or.inr ⟨0, by omega, by simpa using h⟩
        · exact Or.inl h
    | succ cnt' =>
      have hkN : k < N := by omega
      rw [← richWeight_succ N k hkN]
      obtain ⟨h1, h2, h3, h4⟩ := ih (k+1) (s + richWeight N k * sq.getD (N+k) 0)
        (max |richWeight N k| maxc) (by omega)
      refine ⟨?_, ?_, ?_, ?_⟩
      · rw [h1, Finset.sum_range_succ'
          (fun j => richWeight N (k+j) * sq.getD (N+k+j) 0) (cnt'+1)]
        have hshift : ∀ j, j ∈ Finset.range (cnt'+1) →
            richWeight N (k+1+j) * sq.getD (N+(k+1)+j) 0 =
              richWeight N (k+(j+1)) * sq.getD (N+k+(j+1)) 0 := by
          intro j _
          rw [show k+1+j = k+(j+1) by omega, show N+(k+1)+j = N+k+(j+1) by omega]
        rw [Finset.sum_congr rfl hshift]
        simp only [Nat.add_zero]
        ring
      · exact le_trans (le_max_right _ _) h2
      · intro j hj
        rcases Nat.eq_zero_or_pos j with rfl | hjpos
        · simpa using le_trans (le_max_left _ _) h2
        · have := h3 (j-1) (by omega)
          rw [show k+1+(j-1) = k+j by omega] at this
          exact this
      · rcases h4 with h | ⟨j, hj, h⟩
        · rcases max_choice |richWeight N k| maxc with hm | hm
          · exact Or.inr ⟨0, by omega, by rw [h, hm]; simp⟩
          · exact Or.inl (by rw [h, hm])
        · refine Or.inr ⟨j+1, by omega, ?_⟩
          rw [h, show k+1+j = k+(j+1) by omega]

theorem factorial_le_two_mul_pow (N : ℕ) : Nat.factorial N ≤ (2*N)^N := by
  calc Nat.factorial N ≤ N^N := Nat.factorial_le_pow N
    _ ≤ (2*N)^N := Nat.pow_le_pow_left (by omega) N

/-- The extreme weight `c_N = (2N)^N / N!` has magnitude at least 1, so the
code's initialization `maxc = 1` never exceeds the largest weight. -/
theorem one_le_richWeight_extreme (N : ℕ) : 1 ≤ |richWeight N N| := by
  have hval : richWeight N N = ((N+N : ℕ) : ℚ)^N / (Nat.factorial N : ℚ) := by
    rw [richWeight]
    rw [show (-1:ℚ)^(N+N) = 1 by
      rw [show N+N = 2*N by ring, pow_mul]; norm_num]
    simp [Nat.sub_self, Nat.factorial]
  have hleNat : Nat.factorial N ≤ (N + N) ^ N := by
    have h := factorial_le_two_mul_pow N
    rwa [show 2*N = N+N by ring] at h
  have hfac : (0:ℚ) < (Nat.factorial N : ℚ) := by
    exact_mod_cast (Nat.factorial_pos N)
  have hle : ((Nat.factorial N : ℕ) : ℚ) ≤ (((N+N)^N : ℕ) : ℚ) := by
    exact_mod_cast hleNat
  have hcast : ((N+N : ℕ) : ℚ)^N = (((N+N)^N : ℕ) : ℚ) := by push_cast; ring
  have hpos : (0:ℚ) ≤ ((N+N : ℕ) : ℚ)^N / (Nat.factorial N : ℚ) := by positivity
  rw [hval, abs_of_nonneg hpos, le_div_iff hfac, one_mul, hcast]
  exact hle

/-! ### Claim C6 -/
/-- C6: for every sequence accepted by `richardson` (length ≥ 3), writing
`sq` for the (possibly even-index-restricted) sequence and
`N = len(sq)/2 - 1`, the returned value is the weighted sum
`Σ_{k=0}^{N} c_k · sq[N+k]` with the closed-form weights
`c_k = (-1)^(k+N) (N+k)^N / (k! (N-k)!)` generated by the recurrence from
`c_0 = (-1)^N N^N / N!`, and the returned `maxc` is the largest `|c_k|`
encountered: it bounds every `|c_k|` and equals one of them. -/
theorem richardson_weighted_sum (seq : List ℚ) (h3 : 3 ≤ seq.length) :
    (richardson seq).1 =
        ∑ k in Finset.range ((richSeq seq).length / 2 - 1 + 1),
          richWeight ((richSeq seq).length / 2 - 1) k *
            (richSeq seq).getD ((richSeq seq).length / 2 - 1 + k) 0 ∧
      (∀ k, k < (richSeq seq).length / 2 - 1 + 1 →
        |richWeight ((richSeq seq).length / 2 - 1) k| ≤ (richardson seq).2) ∧
      ∃ k, k < (richSeq seq).length / 2 - 1 + 1 ∧
        (richardson seq).2 = |richWeight ((richSeq seq).length / 2 - 1) k| := by
  clear h3
  set NN := (richSeq seq).length / 2 - 1 with hNN
  have hrich : richardson seq =
      richLoop (richSeq seq) NN (NN+1) 0 0 (richWeight NN 0) 1 := by
    simp only [richardson]
    rw [← richWeight_zero]
  obtain ⟨h1, _, h3', h4⟩ := richLoop_spec (richSeq seq) NN (NN+1) 0 0 1 (by omega)
  refine ⟨?_, ?_, ?_⟩
  · rw [hrich, h1]
    rw [zero_add]
    refine Finset.sum_congr rfl ?_
    intro k _
    rw [Nat.zero_add, Nat.add_zero]
  · intro k hk
    have := h3' k hk
    rw [Nat.zero_add] at this
    rw [hrich]
    exact this
  · rcases h4 with hone | ⟨j, hj, h⟩
    · refine ⟨NN, by omega, ?_⟩
      have hub := h3' NN (by omega)
      rw [Nat.zero_add] at hub
      rw [hone] at hub
      have := one_le_richWeight_extreme NN
      rw [hrich, hone]
      exact (le_antisymm hub this).symm
    · refine ⟨j, hj, ?_⟩
      rw [Nat.zero_add] at h
      rw [hrich]
      exact h

/-! ### Claim C2 -/
/-- C2: the bi-infinite reduction is as claimed — `nsum` over `[-inf, inf]`
returns `f(0)` plus the orchestrated sum of `k ↦ f(-k) + f(k)` over
`[1, inf]` (the orchestrator sees `k ↦ f(-(1+k)) + f(1+k)` for `k ≥ 0`).
But the `[-inf, b]` reduction is NOT the claimed sum of `f(k)` for `k ≤ b`:
the code forwards `f` itself to `[-b, inf]` without reflecting the argument,
so the orchestrator enumerates `f(-b), f(-b+1), f(-b+2), …`.  At
`f(k) = 2^k`, `b = -1`, the first term handed over is `f(1) = 2`, not the
claimed `f(b) = f(-1) = 1/2`. -/
theorem nsum_domain_reduction :
    (∀ (orch : (ℕ → ℚ) → ℚ) (f : ℤ → ℚ),
        nsum orch f .ninf .pinf =
          some (f 0 + orch (fun k => f (-(1 + (k:ℤ))) + f (1 + (k:ℤ))))) ∧
      (∀ (orch : (ℕ → ℚ) → ℚ) (f : ℤ → ℚ) (b : ℤ),
        nsum orch f .ninf (.fin b) =
          some (orch (fun k => f (-b + (k:ℤ))))) ∧
      nsum (fun seq => seq 0) (fun k : ℤ => (2:ℚ)^k) .ninf (.fin (-1)) =
        some ((fun k : ℤ => (2:ℚ)^k) 1) ∧
      (fun k : ℤ => (2:ℚ)^k) 1 ≠ (fun k : ℤ => (2:ℚ)^k) (-1) := by
  refine ⟨?_, ?_, ?_, ?_⟩
  · intro orch f
    simp [nsum, nsumFin]
  · intro orch f b
    simp [nsum, nsumFin]
  · simp [nsum, nsumFin]
  · norm_num

/-! ### Claim C7 -/
/-- C7 (amended): with a positive tolerance and pure derivative streams, the
`sumem` correction loop computes exactly the policy described by
`emTruncSpec` on the correction-term list: the first two correction terms
(at `k = 1, 3`) are accumulated unconditionally, and the stopping tests
apply from the third correction term (`k > 4`) on — accept on
`mag < tol` (adding the term), reject on `|prev|/mag < reject` (adding the
magnitude to the error bound). -/
theorem sumemLoop_policy (tol reject : ℚ) (htol : 0 < tol) :
    ∀ (pairs : List (ℚ × ℚ)) (k : ℕ) (s err prev : ℚ) (p : ℕ),
      sumemLoop tol reject (pairs.map (fun q => (pureElem q.1, pureElem q.2)))
          k s err prev p =
        (.ok (emTruncSpec tol reject (emTermsAux pairs k) (k / 2 + 1) s err prev),
          p) := by
  intro pairs
  induction pairs with
  | nil => intro k s err prev p; rfl
  | cons q rest ih =>
    intro k s err prev p
    obtain ⟨da, db⟩ := q
    simp only [List.map_cons, sumemLoop, pureElem, emTermsAux]
    by_cases hk : k % 2 = 1
    · rw [if_pos hk, if_pos hk]
      set term := (db - da) * bernoulliQ (k+1) / (Nat.factorial (k+1) : ℚ) with hterm
      by_cases h4 : 4 < k
      · have hj : ¬ (k / 2 + 1 ≤ 2) := by omega
        rw [emTruncSpec, if_neg hj]
        by_cases hmag : |term| < tol
        · rw [if_pos ⟨h4, hmag⟩, if_pos hmag]
        · rw [if_neg ?_, if_neg hmag, if_pos h4]
          · have hmag0 : ¬ (|term| = 0) := by
              intro h0
              exact hmag (by rw [h0]; exact htol)
            rw [if_neg hmag0]
            by_cases hrej : |prev| / |term| < reject
            · rw [if_pos hrej, if_pos hrej]
            · have hj2 : (k+1) / 2 + 1 = k / 2 + 1 + 1 := by omega
              rw [if_neg hrej, if_neg hrej, ih, hj2]
          · intro hand
            exact hmag hand.2
      · have hj : k / 2 + 1 ≤ 2 := by omega
        rw [emTruncSpec, if_pos hj]
        rw [if_neg ?_, if_neg h4]
        · have hj2 : (k+1) / 2 + 1 = k / 2 + 1 + 1 := by omega
          rw [ih, hj2]
        · intro hand
          exact h4 hand.1
    · have hj2 : (k+1) / 2 + 1 = k / 2 + 1 := by omega
      rw [if_neg hk, if_neg hk, ih, hj2]

/-- Witness for C7 (amended) at a concrete instantiation. -/
theorem sumemLoop_policy_witness :
    (0:ℚ) < 1 ∧
      sumemLoop 1 10 ([((0:ℚ), (12:ℚ))].map (fun q => (pureElem q.1, pureElem q.2)))
          0 0 0 0 5 =
        (.ok (emTruncSpec 1 10 (emTermsAux [((0:ℚ), (12:ℚ))] 0) (0 / 2 + 1) 0 0 0), 5) :=
  ⟨by norm_num, sumemLoop_policy 1 10 (by norm_num) [((0:ℚ), (12:ℚ))] 0 0 0 0 5⟩

set_option maxHeartbeats 1000000 in
/-- C7 counterexample: on streams carrying five available correction terms,
the loop stops at the THIRD correction term (`k = 5`, magnitude `0 < tol`),
having accumulated only the two unconditional terms before any stopping
test applied; the returned sum `0` omits the nonzero fourth term.  This
refutes the claimed minimum of 5 accumulated correction terms before any
stopping test. -/
theorem sumem_min_terms_counterexample :
    sumemLoop (1/1000000) 10
        ((sumemDA.zip sumemDB).map (fun q => (pureElem q.1, pureElem q.2)))
        0 0 0 0 17 = (.ok ((0:ℚ), 0), 17) ∧
      (emTermsAux (sumemDA.zip sumemDB) 0).length = 5 ∧
      (emTermsAux (sumemDA.zip sumemDB) 0).getD 3 0 = 1 := by
  have l1 : bernNext [1] = [1, -1/2] := by
    norm_num [bernNext, Finset.sum_range_succ, Nat.choose]
  have l2 : bernNext [1, -1/2] = [1, -1/2, 1/6] := by
    norm_num [bernNext, Finset.sum_range_succ, Nat.choose]
  have l3 : bernNext [1, -1/2, 1/6] = [1, -1/2, 1/6, 0] := by
    norm_num [bernNext, Finset.sum_range_succ, Nat.choose]
  have l4 : bernNext [1, -1/2, 1/6, 0] = [1, -1/2, 1/6, 0, -1/30] := by
    norm_num [bernNext, Finset.sum_range_succ, Nat.choose]
  have l5 : bernNext [1, -1/2, 1/6, 0, -1/30] = [1, -1/2, 1/6, 0, -1/30, 0] := by
    norm_num [bernNext, Finset.sum_range_succ, Nat.choose]
  have l6 : bernNext [1, -1/2, 1/6, 0, -1/30, 0] =
      [1, -1/2, 1/6, 0, -1/30, 0, 1/42] := by
    norm_num [bernNext, Finset.sum_range_succ, Nat.choose]
  have l7 : bernNext [1, -1/2, 1/6, 0, -1/30, 0, 1/42] =
      [1, -1/2, 1/6, 0, -1/30, 0, 1/42, 0] := by
    norm_num [bernNext, Finset.sum_range_succ, Nat.choose]
  have l8 : bernNext [1, -1/2, 1/6, 0, -1/30, 0, 1/42, 0] =
      [1, -1/2, 1/6, 0, -1/30, 0, 1/42, 0, -1/30] := by
    norm_num [bernNext, Finset.sum_range_succ, Nat.choose]
  have lb2 : bernoulliQ 2 = 1/6 := by
    rw [bernoulliQ]
    simp only [bernList]
    rw [l1, l2]
    norm_num
  have lb4 : bernoulliQ 4 = -1/30 := by
    rw [bernoulliQ]
    simp only [bernList]
    rw [l1, l2, l3, l4]
    norm_num
  have lb6 : bernoulliQ 6 = 1/42 := by
    rw [bernoulliQ]
    simp only [bernList]
    rw [l1, l2, l3, l4, l5, l6]
    norm_num
  have lb8 : bernoulliQ 8 = -1/30 := by
    rw [bernoulliQ]
    simp only [bernList]
    rw [l1, l2, l3, l4, l5, l6, l7, l8]
    norm_num
  refine ⟨?_, ?_, ?_⟩
  · norm_num [sumemDA, sumemDB, sumemLoop, pureElem, lb2, lb4, lb6,
      Nat.factorial]
  · norm_num [sumemDA, sumemDB, emTermsAux]
  · norm_num [sumemDA, sumemDB, emTermsAux, lb8, Nat.factorial]

/-! ### Claim C3 -/
/-- C3: frame property of the working-precision register.  For every
invocation of `adaptive_extrapolation` and of `sumem` — any caller-supplied
`update`/`emfun`/term-function/derivative-stream/quadrature behaviour
(including ones that raise or themselves move the register), any options
and any exit path — the register at the moment the call returns (a value or
a propagated exception) equals the register at entry, even though it is
elevated internally (`×4`/`+30`, resp. `+10`). -/
theorem prec_restored_on_all_paths :
    (∀ update emfun epsF rnd tolOpt maxtermsOpt methodOpt stepsOpt fuel prec,
        (adaptive_extrapolation update emfun epsF rnd tolOpt maxtermsOpt
          methodOpt stepsOpt fuel prec).2 = prec) ∧
      (∀ f a b tolOpt reject integralOpt adOpt bdOpt dfltA dfltB quadOr epsF prec,
        (sumem f a b tolOpt reject integralOpt adOpt bdOpt dfltA dfltB quadOr
          epsF prec).2 = prec) := by
  constructor <;> intros <;> rfl

/-! ### Claim C9 -/
/-- C9 counterexample: with the unknown method tag `"x"` the orchestrator
does NOT fail fast — it generates a batch of terms and returns a direct
estimate normally (here the constant-zero series converges at once). -/
theorem adaptive_unknown_method_counterexample :
    adaptive_extrapolation (nsumUpdate (fun _ => 0) 0)
        (fun _ _ p => ((.ok ((0:ℚ), (0:ℚ))), p)) (fun _ => 1/2^53)
        (fun _ _ => 1) (some 0) (some 5) (some "x") (some [2]) 3 7 =
      ((.ok (0:ℚ)), 7) := by
  have h1 : (methodTags "x").contains ("r".toList) = false := by decide
  have h2 : (methodTags "x").contains ("richardson".toList) = false := by decide
  have h3 : (methodTags "x").contains ("s".toList) = false := by decide
  have h4 : (methodTags "x").contains ("shanks".toList) = false := by decide
  have h5 : (methodTags "x").contains ("e".toList) = false := by decide
  have h6 : (methodTags "x").contains ("euler-maclaurin".toList) = false := by decide
  norm_num [adaptive_extrapolation, Option.getD, h1, h2, h3, h4, h5, h6,
    adaptLoop, adaptStep, stepsFunOf, nsumUpdate, nsumPartials, List.range',
    richStage, shanksStage, emStage]

/-- C9 (amended): an unknown method tag is silently ignored — every
acceleration flag stays false and the run is identical to a
`method='direct'` run (which, by the source's vacuous
`if method in ('d','direct')` comparison of a list against strings, takes
the same all-flags-false path): no locally-raised error occurs before or
instead of term generation. -/
theorem adaptive_unknown_method_is_direct (m : String)
    (hr : (methodTags m).contains ("r".toList) = false)
    (hrich : (methodTags m).contains ("richardson".toList) = false)
    (hs : (methodTags m).contains ("s".toList) = false)
    (hsha : (methodTags m).contains ("shanks".toList) = false)
    (he : (methodTags m).contains ("e".toList) = false)
    (hem : (methodTags m).contains ("euler-maclaurin".toList) = false)
    (update : List ℚ → List ℕ → ℕ → (Except PyErr (List ℚ)) × ℕ)
    (emfun : ℕ → ℚ → ℕ → (Except PyErr (ℚ × ℚ)) × ℕ)
    (epsF : ℕ → ℚ) (rnd : ℕ → ℕ → ℕ) (tolOpt : Option ℚ)
    (maxtermsOpt : Option ℕ) (stepsOpt : Option (List ℕ)) (fuel prec : ℕ) :
    adaptive_extrapolation update emfun epsF rnd tolOpt maxtermsOpt (some m)
        stepsOpt fuel prec =
      adaptive_extrapolation update emfun epsF rnd tolOpt maxtermsOpt
        (some "direct") stepsOpt fuel prec := by
  have hd1 : (methodTags "direct").contains ("r".toList) = false := by decide
  have hd2 : (methodTags "direct").contains ("richardson".toList) = false := by decide
  have hd3 : (methodTags "direct").contains ("s".toList) = false := by decide
  have hd4 : (methodTags "direct").contains ("shanks".toList) = false := by decide
  have hd5 : (methodTags "direct").contains ("e".toList) = false := by decide
  have hd6 : (methodTags "direct").contains ("euler-maclaurin".toList) = false := by decide
  simp only [adaptive_extrapolation, Option.getD_some, hr, hrich, hs, hsha,
    he, hem, hd1, hd2, hd3, hd4, hd5, hd6]

/-- Witness for C9 (amended) at the concrete tag `"x"`. -/
theorem adaptive_unknown_method_is_direct_witness :
    ((methodTags "x").contains ("r".toList) = false ∧
      (methodTags "x").contains ("euler-maclaurin".toList) = false) ∧
      adaptive_extrapolation (nsumUpdate (fun _ => 0) 0)
          (fun _ _ p => ((.ok ((0:ℚ), (0:ℚ))), p)) (fun _ => 1/2^53)
          (fun _ _ => 1) (some 0) (some 5) (some "x") (some [2]) 3 7 =
        adaptive_extrapolation (nsumUpdate (fun _ => 0) 0)
          (fun _ _ p => ((.ok ((0:ℚ), (0:ℚ))), p)) (fun _ => 1/2^53)
          (fun _ _ => 1) (some 0) (some 5) (some "direct") (some [2]) 3 7 :=
  ⟨⟨by decide, by decide⟩,
    adaptive_unknown_method_is_direct "x" (by decide) (by decide) (by decide)
      (by decide) (by decide) (by decide) (nsumUpdate (fun _ => 0) 0)
      (fun _ _ p => ((.ok ((0:ℚ), (0:ℚ))), p)) (fun _ => 1/2^53)
      (fun _ _ => 1) (some 0) (some 5) (some [2]) 3 7⟩

/-! ### Claim C10 -/
theorem nsumPartials_length (f : ℤ → ℚ) (a : ℤ) :
    ∀ (idxs : List ℕ) (s : ℚ), (nsumPartials f a s idxs).length = idxs.length := by
  intro idxs
  induction idxs with
  | nil => intro s; rfl
  | cons k rest ih => intro s; simp [nsumPartials, ih]

/-- C10: a first batch contributing fewer than 2 partial sums crashes the
direct-error check.  Part 1: with `steps=[1]` and an `nsum`-style `update`
starting from the empty partial-sum list, `adaptive_extrapolation` raises
an uncaught `IndexError` at `abs(partial[-1] - partial[-2])` instead of
returning an estimate (for every term function, tolerance, method and
maxterms ≥ 1).  Part 2: every run that returns a value normally had a
first effective batch of at least 2 terms. -/
theorem adaptive_first_batch_indexerror :
    (∀ (f : ℤ → ℚ) (a : ℤ) emfun epsF rnd tolOpt maxtermsOpt methodOpt fuel prec,
        1 ≤ maxtermsOpt.getD (dpsOf prec * 10) → 1 ≤ fuel →
        adaptive_extrapolation (nsumUpdate f a) emfun epsF rnd tolOpt
          maxtermsOpt methodOpt (some [1]) fuel prec =
          (.error PyErr.indexError, prec)) ∧
      (∀ (f : ℤ → ℚ) (a : ℤ) emfun epsF rnd tolOpt maxtermsOpt methodOpt
          stepsOpt fuel prec (v : ℚ),
        1 ≤ maxtermsOpt.getD (dpsOf prec * 10) →
        (adaptive_extrapolation (nsumUpdate f a) emfun epsF rnd tolOpt
          maxtermsOpt methodOpt stepsOpt fuel prec).1 = .ok v →
        2 ≤ (stepsFunOf stepsOpt 0).getD 10) := by
  have hstep1 : ∀ (f : ℤ → ℚ) (a : ℤ) stepsOpt emfun epsF rnd tol
      (st : ALoopSt) p, st.psums = [] → st.stepsIdx = 0 →
      (stepsFunOf stepsOpt 0).getD st.step < 2 →
      adaptStep (stepsFunOf stepsOpt) (nsumUpdate f a) emfun epsF rnd tol st p =
        .err .indexError p := by
    intro f a stepsOpt emfun epsF rnd tol st p hps hidx hlt
    simp only [adaptStep, hps, hidx, nsumUpdate, List.nil_append]
    rw [if_pos]
    rw [nsumPartials_length]
    simpa using hlt
  constructor
  · intro f a emfun epsF rnd tolOpt maxtermsOpt methodOpt fuel prec hmax hfuel
    obtain ⟨fuel, rfl⟩ : ∃ k, fuel = k + 1 := ⟨fuel - 1, by omega⟩
    simp only [adaptive_extrapolation, adaptLoop]
    rw [if_neg (by omega : ¬ (maxtermsOpt.getD (dpsOf prec * 10) ≤ 0))]
    rw [hstep1 f a (some [1]) emfun epsF rnd _ _ _ rfl rfl
      (show (stepsFunOf (some [1]) 0).getD 10 < 2 by simp [stepsFunOf])]
  · intro f a emfun epsF rnd tolOpt maxtermsOpt methodOpt stepsOpt fuel prec v
      hmax hok
    by_contra hlt
    rcases Nat.eq_zero_or_pos fuel with rfl | hfuel
    · simp only [adaptive_extrapolation, adaptLoop] at hok
      simp at hok
    · obtain ⟨fuel, rfl⟩ : ∃ k, fuel = k + 1 := ⟨fuel - 1, by omega⟩
      simp only [adaptive_extrapolation, adaptLoop] at hok
      rw [if_neg (by omega : ¬ (maxtermsOpt.getD (dpsOf prec * 10) ≤ 0))] at hok
      rw [hstep1 f a stepsOpt emfun epsF rnd _ _ _ rfl rfl
        (show (stepsFunOf stepsOpt 0).getD 10 < 2 by omega)] at hok
      simp at hok

/-- Witness for C10 at a concrete configuration (`steps=[1]`, constant
term function, maxterms 5) and a concrete normal return. -/
theorem adaptive_first_batch_indexerror_witness :
    (1 ≤ (Option.getD (some 5) (dpsOf 7 * 10)) ∧ 1 ≤ 3 ∧
      adaptive_extrapolation (nsumUpdate (fun _ => 0) 0)
          (fun _ _ p => ((.ok ((0:ℚ), (0:ℚ))), p)) (fun _ => 1/2^53)
          (fun _ _ => 1) (some 0) (some 5) (some "x") (some [1]) 3 7 =
        (.error PyErr.indexError, 7)) ∧
      ((adaptive_extrapolation (nsumUpdate (fun _ => 0) 0)
          (fun _ _ p => ((.ok ((0:ℚ), (0:ℚ))), p)) (fun _ => 1/2^53)
          (fun _ _ => 1) (some 0) (some 5) (some "x") (some [2]) 3 7).1 =
          .ok (0:ℚ) →
        2 ≤ (stepsFunOf (some [2]) 0).getD 10) :=
  ⟨⟨by norm_num, by norm_num,
    adaptive_first_batch_indexerror.1 (fun _ => 0) 0
      (fun _ _ p => ((.ok ((0:ℚ), (0:ℚ))), p)) (fun _ => 1/2^53)
      (fun _ _ => 1) (some 0) (some 5) (some "x") 3 7 (by norm_num) (by norm_num)⟩,
    fun h => adaptive_first_batch_indexerror.2 (fun _ => 0) 0
      (fun _ _ p => ((.ok ((0:ℚ), (0:ℚ))), p)) (fun _ => 1/2^53)
      (fun _ _ => 1) (some 0) (some 5) (some "x") (some [2]) 3 7 0
      (by norm_num) h⟩

/-- C8 counterexample: a run whose last two RAW TERMS have sign ratio `-1`
(`1` and `-1/2`), yet Euler-Maclaurin is NOT disabled: the partial sums
`1, 1/2` are both positive, so the code's detector (which looks at the
partial sums, not the terms) lets `emfun` run, and its estimate
`100 + 1/2 = 201/2` is returned.  Under the claim the estimate would have
been disabled and the returned value could only have been the tracked best
`1/2`. -/
theorem adaptive_em_raw_terms_counterexample :
    adaptive_extrapolation (nsumUpdate emCexTerms 0)
        (fun _ _ p => ((.ok ((100:ℚ), (0:ℚ))), p)) (fun _ => 1/2^53)
        (fun _ _ => 1) (some 0) (some 5) (some "e") (some [2]) 3 7 =
      ((.ok ((201:ℚ)/2)), 7) ∧
      emCexTerms 1 * emCexTerms 0 < 0 ∧ ((201:ℚ)/2) ≠ 1/2 := by
  have h1 : (methodTags "e").contains ("r".toList) = false := by decide
  have h2 : (methodTags "e").contains ("richardson".toList) = false := by decide
  have h3 : (methodTags "e").contains ("s".toList) = false := by decide
  have h4 : (methodTags "e").contains ("shanks".toList) = false := by decide
  have h5 : (methodTags "e").contains ("e".toList) = true := by decide
  have h6 : (methodTags "e").contains ("euler-maclaurin".toList) = false := by decide
  have m1 : ¬ ((['r'] : List Char) ∈ methodTags "e") := by decide
  have m2 : ¬ ((['r','i','c','h','a','r','d','s','o','n'] : List Char) ∈
    methodTags "e") := by decide
  have m3 : ¬ ((['s'] : List Char) ∈ methodTags "e") := by decide
  have m4 : ¬ ((['s','h','a','n','k','s'] : List Char) ∈ methodTags "e") := by
    decide
  have m5 : (['e'] : List Char) ∈ methodTags "e" := by decide
  have m6 : ¬ ((['e','u','l','e','r','-','m','a','c','l','a','u','r','i','n'] :
    List Char) ∈ methodTags "e") := by decide
  refine ⟨?_, by norm_num [emCexTerms], by norm_num⟩
  norm_num [adaptive_extrapolation, Option.getD, h1, h2, h3, h4, h5, h6,
    m1, m2, m3, m4, m5, m6,
    adaptLoop, adaptStep, stepsFunOf, nsumUpdate, nsumPartials, List.range',
    richStage, shanksStage, emStage, emAlternatingTest, signQ, emCexTerms]

/-- C8 (amended): in an iteration that reaches the Euler-Maclaurin stage —
EM still enabled, a batch generated with at least 2 partial sums, direct
error above tolerance, and the Richardson and Shanks stages (whether
enabled or not) falling through without returning or raising — EM is
disabled for the remainder of the run exactly when the sign ratio
`sign(partial[-1]) / sign(partial[-2])` of the two most recent PARTIAL
SUMS is `-1`, and then no `emfun` whatsoever is consulted; otherwise the
EM tail estimate is computed for that batch and, when its error bound
meets the tolerance, `value + partial[-1]` is returned. -/
theorem adaptStep_em_decision (stepsFun : ℕ → Option ℕ)
    (update : List ℚ → List ℕ → ℕ → (Except PyErr (List ℚ)) × ℕ)
    (epsF : ℕ → ℚ) (rnd : ℕ → ℕ → ℕ) (tol : ℚ) (st : ALoopSt)
    (p p1 : ℕ) (P : List ℚ) (tryR1 : Bool) (lastRich1 err1 best1 : ℚ)
    (tryS1 : Bool) (tab1 : List (List ℚ)) (err2 best2 : ℚ)
    (hEM : st.tryEM = true)
    (hupd : update st.psums
      (List.range' st.index ((stepsFun st.stepsIdx).getD st.step)) p =
      ((.ok P), p1))
    (hlen : ¬ (P.length < 2))
    (hdir : ¬ (|P.getD (P.length - 1) 0 - P.getD (P.length - 2) 0| ≤ tol))
    (hR : richStage epsF tol st.tryR P st.lastRich
      (|P.getD (P.length - 1) 0 - P.getD (P.length - 2) 0|)
      (P.getD (P.length - 1) 0) p1 =
      .ok (.inr (tryR1, lastRich1, err1, best1)))
    (hS : shanksStage epsF rnd tol st.tryS P st.shanksTab err1 best1 p1 =
      .ok (.inr (tryS1, tab1, err2, best2))) :
    (∀ emfun2,
        emAlternatingTest (P.getD (P.length - 1) 0) (P.getD (P.length - 2) 0) =
          .ok true →
        adaptStep stepsFun update emfun2 epsF rnd tol st p =
          .cont (ALoopSt.mk (st.stepsIdx + 1)
            ((stepsFun st.stepsIdx).getD st.step)
            (st.index + (stepsFun st.stepsIdx).getD st.step) P
            best2 lastRich1 tab1 tryR1 tryS1 false) p1) ∧
      (∀ (v e : ℚ),
        emAlternatingTest (P.getD (P.length - 1) 0) (P.getD (P.length - 2) 0) =
          .ok false →
        e ≤ tol →
        adaptStep stepsFun update
            (fun _ _ pr => ((.ok (v, e)), pr)) epsF rnd tol st p =
          .ret (v + P.getD (P.length - 1) 0) p1) := by
  constructor
  · intro emfun2 hter
    simp only [adaptStep, hupd, if_neg hlen, if_neg hdir, hR, hS, emStage, hEM,
      hter, if_true]
  · intro v e hter hetol
    simp only [adaptStep, hupd, if_neg hlen, if_neg hdir, hR, hS, emStage, hEM,
      hter, if_pos hetol, if_true]

/-- Witness for C8 (amended) at a concrete configuration: partial sums
`[1, 1/2]` (both positive), tolerance 0, Richardson and Shanks stages
falling through, a pure `emfun` returning `(100, 0)`. -/
theorem adaptStep_em_decision_witness :
    ((ALoopSt.mk 0 10 0 [] 0 0 [] false false true).tryEM = true ∧
      cexUpdate []
        (List.range' 0 ((((fun _ => some 2) : ℕ → Option ℕ) 0).getD 10)) 5 =
        ((.ok [(1:ℚ), 1/2]), 5) ∧
      ¬ (([(1:ℚ), 1/2] : List ℚ).length < 2) ∧
      ¬ (|([(1:ℚ), 1/2].getD 1 0) - ([(1:ℚ), 1/2].getD 0 0)| ≤ (0:ℚ)) ∧
      richStage (fun _ => 1/2^53) 0 false [(1:ℚ), 1/2] 0
          (|([(1:ℚ), 1/2].getD 1 0) - ([(1:ℚ), 1/2].getD 0 0)|)
          ([(1:ℚ), 1/2].getD 1 0) 5 =
        .ok (.inr (false, 0,
          |([(1:ℚ), 1/2].getD 1 0) - ([(1:ℚ), 1/2].getD 0 0)|,
          [(1:ℚ), 1/2].getD 1 0)) ∧
      shanksStage (fun _ => 1/2^53) (fun _ _ => 1) 0 false [(1:ℚ), 1/2] []
          (|([(1:ℚ), 1/2].getD 1 0) - ([(1:ℚ), 1/2].getD 0 0)|)
          ([(1:ℚ), 1/2].getD 1 0) 5 =
        .ok (.inr (false, [],
          |([(1:ℚ), 1/2].getD 1 0) - ([(1:ℚ), 1/2].getD 0 0)|,
          [(1:ℚ), 1/2].getD 1 0)) ∧
      emAlternatingTest ([(1:ℚ), 1/2].getD 1 0) ([(1:ℚ), 1/2].getD 0 0) =
        .ok false) ∧
      adaptStep (fun _ => some 2) cexUpdate
          (fun _ _ pr => ((.ok ((100:ℚ), (0:ℚ))), pr))
          (fun _ => 1/2^53) (fun _ _ => 1) 0
          (ALoopSt.mk 0 10 0 [] 0 0 [] false false true) 5 =
        .ret ((100:ℚ) + [(1:ℚ), 1/2].getD 1 0) 5 := by
  have hter : emAlternatingTest ([(1:ℚ), 1/2].getD 1 0) ([(1:ℚ), 1/2].getD 0 0) =
      .ok false := by
    norm_num [emAlternatingTest, signQ]
  have hdir : ¬ (|([(1:ℚ), 1/2].getD 1 0) - ([(1:ℚ), 1/2].getD 0 0)| ≤ (0:ℚ)) := by
    norm_num
  refine ⟨⟨rfl, rfl, by norm_num, hdir, rfl, rfl, hter⟩, ?_⟩
  have h := (adaptStep_em_decision (fun _ => some 2)
    cexUpdate (fun _ => 1/2^53) (fun _ _ => 1)
    0 (ALoopSt.mk 0 10 0 [] 0 0 [] false false true) 5 5 [(1:ℚ), 1/2]
    false 0 _ _ false [] _ _
    rfl rfl (by norm_num) hdir rfl rfl).2 100 0 hter (le_refl 0)
  simpa using h

/-- Witness for C6 at the concrete input `[1, 2, 3]`. -/
theorem richardson_weighted_sum_witness :
    3 ≤ ([1, 2, 3] : List ℚ).length ∧
      ((richardson [1, 2, 3]).1 =
          ∑ k in Finset.range ((richSeq [1, 2, 3]).length / 2 - 1 + 1),
            richWeight ((richSeq [1, 2, 3]).length / 2 - 1) k *
              (richSeq [1, 2, 3]).getD ((richSeq [1, 2, 3]).length / 2 - 1 + k) 0 ∧
        (∀ k, k < (richSeq [1, 2, 3] : List ℚ).length / 2 - 1 + 1 →
          |richWeight ((richSeq [1, 2, 3]).length / 2 - 1) k| ≤ (richardson [1, 2, 3]).2) ∧
        ∃ k, k < (richSeq [1, 2, 3] : List ℚ).length / 2 - 1 + 1 ∧
          (richardson [1, 2, 3]).2 = |richWeight ((richSeq [1, 2, 3]).length / 2 - 1) k|) :=
  ⟨by norm_num, richardson_weighted_sum [1, 2, 3] (by norm_num)⟩

end Mpmath
